import Mathlib

deriving instance DecidableEq for Except

/-!
Verification of the SubRip (.srt) subtitle decoder in the `subtitles` crate.

The embedding follows the source files:
  * `src/subtitles/src/subrip/format.rs`  — `Timecode`, `SubRip`, `Display for SubRip`
  * `src/subtitles/src/subrip/core.rs`    — `parse_position`, `parse_timecode`, `trim_newline`
  * `src/subtitles/src/subrip/error.rs`   — `Error`, `ErrorKind`
  * `src/subtitles/src/subrip/parser.rs`  — `SubRipParser::{parse_next, skip_empty_lines,
    next_line}` and its `Iterator` instance

Decoded lines (Rust `String`) are modelled as `List Char`; raw streams as `List Nat`
(byte values).  The byte-level reader `nextLineB` embeds `next_line` including BOM
detection and the UTF-16LE pad-byte read; the record state machine is embedded both
over the byte stream (`parseNextB`, used for concrete runs) and over the sequence of
decoded lines that `next_line` produces (`parseNextL`, used for universally
quantified statements).  I/O failure of the underlying reader is outside the pure
model; `Error` values therefore always wrap a field-parse failure message.
-/

namespace Subs

/-- A decoded text line (Rust `String` in `parser.rs` / `core.rs`). -/
abbrev Str := List Char

/-- `format.rs`: `Timecode` — note the source declares the four fields with the
unsigned machine types `u8, u8, u8, u16`; values are `Nat`s and the type bounds
are enforced where the source parses them (`str::parse::<u8>` / `::<u16>`). -/
structure Timecode where
  hours : Nat
  minutes : Nat
  seconds : Nat
  milliseconds : Nat
deriving DecidableEq, Repr

/-- `format.rs`: `SubRip` — one caption record.  Text lines are the decoded lines
pushed by `parse_next`. -/
structure SubRip where
  position : Nat
  start : Timecode
  «end» : Timecode
  text : List Str
deriving DecidableEq, Repr

/-- `error.rs`: `ErrorKind`. -/
inductive ErrorKind where
  | InvalidPosition
  | InvalidTimecode
  | InvalidText
deriving DecidableEq, Repr

/-- `error.rs`: `Error` — a kind plus the underlying parse-failure description. -/
structure Error where
  kind : ErrorKind
  error : String
deriving DecidableEq, Repr

/-- Decimal value of a list of digit characters (the accumulator loop inside
Rust integer `from_str`). -/
def digitsVal (l : Str) : Nat :=
  l.foldl (fun a c => a * 10 + (c.toNat - 48)) 0

/-- Rust `str::parse::<uN>` for an unsigned integer type with exclusive upper
bound `bound`: an optional leading `+` sign, then one or more decimal digits,
rejecting the empty string, any non-digit (including a `-` sign) and any value
that does not fit in the target type. -/
def parseUnsigned (bound : Nat) (l : Str) : Except String Nat :=
  let l2 := match l with
    | c :: rest => if c = '+' then rest else c :: rest
    | [] => []
  if l2 = [] then .error "cannot parse integer from empty string"
  else if l2.all Char.isDigit then
    if digitsVal l2 < bound then .ok (digitsVal l2)
    else .error "number too large to fit in target type"
  else .error "invalid digit found in string"

/-- Exclusive bound of Rust `u8`. -/
def u8Bound : Nat := 256

/-- Exclusive bound of Rust `u16`. -/
def u16Bound : Nat := 65536

/-- Exclusive bound of Rust `usize` (64-bit target). -/
def usizeBound : Nat := 2 ^ 64

/-- `core.rs`: `parse_position` — an empty line is the clean "no more records"
sentinel; otherwise the line must parse as a `usize`. -/
def parsePosition (l : Str) : Except String (Option Nat) :=
  if l = [] then .ok none
  else (parseUnsigned usizeBound l).map some

/-- The delimiter set `&[':', ',', ' ']` used by `core.rs`: `parse_timecode`. -/
def isDelim (c : Char) : Bool :=
  c = ':' || c = ',' || c = ' '

/-- Rust `str::split` on the delimiter set: adjacent delimiters produce empty
tokens and the empty string yields one empty token. -/
def splitDelims : Str → List Str
  | [] => [[]]
  | c :: cs =>
    if isDelim c then [] :: splitDelims cs
    else
      match splitDelims cs with
      | t :: ts => (c :: t) :: ts
      | [] => [[c]]

/-- `core.rs`: `line.get(i).ok_or(err)?.parse()?` — fetch token `i` (error
`wrong timecode format` if missing) and parse it with bound `bound`. -/
def parseField (toks : List Str) (i : Nat) (bound : Nat) : Except String Nat :=
  match toks.get? i with
  | none => .error "wrong timecode format"
  | some t => parseUnsigned bound t

/-- `core.rs`: `parse_timecode` — split the line on `{:, ',', ' '}` and parse
tokens 0–3 as the start timecode and 5–8 as the end timecode (token 4, the
arrow, is never examined).  Field types come from `format.rs` (`u8` for
hours/minutes/seconds, `u16` for milliseconds). -/
def parseTimecode (l : Str) : Except String (Option (Timecode × Timecode)) :=
  if l = [] then .ok none
  else
    let toks := splitDelims l
    do
      let sh ← parseField toks 0 u8Bound
      let sm ← parseField toks 1 u8Bound
      let ss ← parseField toks 2 u8Bound
      let sms ← parseField toks 3 u16Bound
      let eh ← parseField toks 5 u8Bound
      let em ← parseField toks 6 u8Bound
      let es ← parseField toks 7 u8Bound
      let ems ← parseField toks 8 u16Bound
      pure (some (⟨sh, sm, ss, sms⟩, ⟨eh, em, es, ems⟩))

/-- `core.rs`: `trim_newline` — strip one trailing `\n` and, if then present,
one trailing `\r`. -/
def trimNewline (l : Str) : Str :=
  if l.getLast? = some '\n' then
    let l1 := l.dropLast
    if l1.getLast? = some '\r' then l1.dropLast else l1
  else l

/-- A raw byte of the input stream. -/
abbrev Byte := Nat

/-- The three encodings `Encoding::for_bom` can select (plus the UTF-8 default). -/
inductive Enc where
  | utf8
  | utf16le
  | utf16be
deriving DecidableEq, Repr

/-- State of an `encoding_rs` incremental decoder created with
`new_decoder_with_bom_removal`: the chosen encoding and whether the initial
chunk (whose leading BOM is to be removed) is still pending. -/
structure Dec where
  enc : Enc
  first : Bool
deriving DecidableEq, Repr

/-- `encoding_rs::Encoding::for_bom`: recognize the UTF-8, UTF-16BE and
UTF-16LE byte-order marks, returning the encoding and the mark length. -/
def forBom : List Byte → Option (Enc × Nat)
  | 0xEF :: 0xBB :: 0xBF :: _ => some (.utf8, 3)
  | 0xFE :: 0xFF :: _ => some (.utf16be, 2)
  | 0xFF :: 0xFE :: _ => some (.utf16le, 2)
  | _ => none

/-- `BufRead::read_until(t)`: consume bytes up to and including the first
occurrence of `t` (or to end-of-stream), returning the filled buffer and the
remaining stream. -/
def readUntil (t : Byte) : List Byte → List Byte × List Byte
  | [] => ([], [])
  | b :: bs =>
    if b = t then ([b], bs)
    else
      let (buf, rest) := readUntil t bs
      (b :: buf, rest)

/-- The U+FFFD replacement character used by lossy decoding. -/
def repl : Char := Char.ofNat 0xFFFD

/-- Modelled from the `encoding_rs` decode contract on the ASCII subset: a
UTF-8 decoder maps each byte below 0x80 to itself; other bytes belong to
multi-byte sequences, modelled here only as replacement output (the claims
under proof never decode non-ASCII UTF-8 content). -/
def decodeUtf8 (bs : List Byte) : Str :=
  bs.map (fun b => if b < 0x80 then Char.ofNat b else repl)

/-- Group a UTF-16 byte stream into 16-bit code units (little- or big-endian);
a lone trailing byte decodes as a replacement unit. -/
def utf16Units (le : Bool) : List Byte → List Nat
  | a :: b :: rest => (if le then a + 256 * b else 256 * a + b) :: utf16Units le rest
  | _ :: [] => [0xFFFD]
  | [] => []

/-- Modelled from the `encoding_rs` decode contract on the basic plane: a
16-bit unit outside the surrogate range is its scalar value; surrogate halves
are modelled as replacement output (the claims under proof never inspect
decoded UTF-16 content beyond ASCII). -/
def unitChar (u : Nat) : Char :=
  if u < 0xD800 ∨ 0xE000 ≤ u then Char.ofNat u else repl

/-- Strip the leading byte-order mark of encoding `e`, if present. -/
def stripBom (e : Enc) (bs : List Byte) : List Byte :=
  match e, bs with
  | .utf8, 0xEF :: 0xBB :: 0xBF :: rest => rest
  | .utf16be, 0xFE :: 0xFF :: rest => rest
  | .utf16le, 0xFF :: 0xFE :: rest => rest
  | _, _ => bs

/-- `Decoder::decode_to_string` on one buffer: remove the BOM if this is the
first chunk, then decode per the chosen encoding. -/
def decodeChunk (d : Dec) (bs : List Byte) : Str × Dec :=
  let bs1 := if d.first then stripBom d.enc bs else bs
  let s := match d.enc with
    | .utf8 => decodeUtf8 bs1
    | .utf16le => (utf16Units true bs1).map unitChar
    | .utf16be => (utf16Units false bs1).map unitChar
  (s, ⟨d.enc, false⟩)

/-- Parser state: the lazily created decoder (`None` before the first line
pull) and the unread remainder of the byte stream. -/
structure PState where
  dec : Option Dec
  bytes : List Byte
deriving DecidableEq, Repr

/-- `parser.rs`: `next_line` — read until the first `\n` byte, lazily select
the decoder from the buffer's BOM (defaulting to UTF-8), for UTF-16LE also
read until the pad byte `\x00` of the terminator unit, then either signal
end-of-stream (empty buffer) or decode and trim the line. -/
def nextLineB (s : PState) : Option Str × PState :=
  let (buf1, r1) := readUntil 10 s.bytes
  let d := match s.dec with
    | some d0 => d0
    | none => ⟨((forBom buf1).map Prod.fst).getD .utf8, true⟩
  let (buf, rest) :=
    if d.enc = .utf16le then
      let (buf2, r2) := readUntil 0 r1
      (buf1 ++ buf2, r2)
    else (buf1, r1)
  if buf = [] then (none, ⟨some d, rest⟩)
  else
    let (line, d2) := decodeChunk d buf
    (some (trimNewline line), ⟨some d2, rest⟩)

/-- Fuel-indexed loop of `parser.rs`: `skip_empty_lines` (the fuel only bounds
the recursion; the wrapper supplies more fuel than the stream has bytes, so
the zero-fuel branch is never reached). -/
def skipEmptyGo : Nat → PState → Option Str × PState
  | 0, s => (none, s)
  | fuel + 1, s =>
    match nextLineB s with
    | (none, s2) => (none, s2)
    | (some l, s2) => if l = [] then skipEmptyGo fuel s2 else (some l, s2)

/-- `parser.rs`: `skip_empty_lines` — pull lines until a non-empty line
(returned) or end-of-stream. -/
def skipEmptyLinesB (s : PState) : Option Str × PState :=
  skipEmptyGo (s.bytes.length + 1) s

/-- Fuel-indexed text-accumulation loop of `parser.rs`: `parse_next` — append
non-empty lines until an empty line or end-of-stream. -/
def textLoopGo : Nat → PState → List Str → List Str × PState
  | 0, s, acc => (acc, s)
  | fuel + 1, s, acc =>
    match nextLineB s with
    | (none, s2) => (acc, s2)
    | (some l, s2) => if l = [] then (acc, s2) else textLoopGo fuel s2 (acc ++ [l])

/-- `parser.rs`: `parse_next` over the byte stream.  The `.ok none` arms after
a successful `skip_empty_lines` mirror the empty-line sentinel of the field
parsers; they are unreachable because `skip_empty_lines` only returns
non-empty lines.  I/O errors of the reader are outside the pure model, so the
`InvalidText` wrap of a read failure inside the text loop cannot arise. -/
def parseNextB (s : PState) : Except Error (Option SubRip) × PState :=
  match skipEmptyLinesB s with
  | (none, s1) => (.ok none, s1)
  | (some line, s1) =>
    match parsePosition line with
    | .error e => (.error ⟨.InvalidPosition, e⟩, s1)
    | .ok none => (.ok none, s1)
    | .ok (some pos) =>
      match skipEmptyLinesB s1 with
      | (none, s2) => (.ok none, s2)
      | (some tline, s2) =>
        match parseTimecode tline with
        | .error e => (.error ⟨.InvalidTimecode, e⟩, s2)
        | .ok none => (.ok none, s2)
        | .ok (some (st, en)) =>
          let (text, s3) := textLoopGo (s2.bytes.length + 1) s2 []
          (.ok (some ⟨pos, st, en, text⟩), s3)

/-- `parser.rs`: `Iterator::next` — `self.parse_next().transpose()`. -/
def nextItemB (s : PState) : Option (Except Error SubRip) × PState :=
  match parseNextB s with
  | (.ok none, s2) => (none, s2)
  | (.ok (some r), s2) => (some (.ok r), s2)
  | (.error e, s2) => (some (.error e), s2)

/-- The first `n` pulls of the iterator over the byte stream. -/
def itemsB : Nat → PState → List (Option (Except Error SubRip))
  | 0, _ => []
  | n + 1, s =>
    let (i, s2) := nextItemB s
    i :: itemsB n s2

/-- `skip_empty_lines` over the sequence of decoded lines that `next_line`
produces (end-of-stream is the end of the list). -/
def skipEmptyLinesL : List Str → Option Str × List Str
  | [] => (none, [])
  | l :: ls => if l = [] then skipEmptyLinesL ls else (some l, ls)

/-- The text-accumulation loop of `parse_next` over the decoded-line sequence. -/
def textLoopL : List Str → List Str → List Str × List Str
  | [], acc => (acc, [])
  | l :: ls, acc => if l = [] then (acc, ls) else textLoopL ls (acc ++ [l])

/-- `parser.rs`: `parse_next` over the decoded-line sequence (same state
machine as `parseNextB`, with `next_line` abstracted to the line list it
yields). -/
def parseNextL (ls : List Str) : Except Error (Option SubRip) × List Str :=
  match skipEmptyLinesL ls with
  | (none, ls1) => (.ok none, ls1)
  | (some line, ls1) =>
    match parsePosition line with
    | .error e => (.error ⟨.InvalidPosition, e⟩, ls1)
    | .ok none => (.ok none, ls1)
    | .ok (some pos) =>
      match skipEmptyLinesL ls1 with
      | (none, ls2) => (.ok none, ls2)
      | (some tline, ls2) =>
        match parseTimecode tline with
        | .error e => (.error ⟨.InvalidTimecode, e⟩, ls2)
        | .ok none => (.ok none, ls2)
        | .ok (some (st, en)) =>
          let (text, ls3) := textLoopL ls2 []
          (.ok (some ⟨pos, st, en, text⟩), ls3)

/-- `Iterator::next` over the decoded-line sequence. -/
def nextItemL (ls : List Str) : Option (Except Error SubRip) × List Str :=
  match parseNextL ls with
  | (.ok none, ls2) => (none, ls2)
  | (.ok (some r), ls2) => (some (.ok r), ls2)
  | (.error e, ls2) => (some (.error e), ls2)

/-- The first `n` pulls of the iterator over the decoded-line sequence. -/
def itemsL : Nat → List Str → List (Option (Except Error SubRip))
  | 0, _ => []
  | n + 1, ls =>
    let (i, ls2) := nextItemL ls
    i :: itemsL n ls2

/-- Little-endian list of decimal digits of `n` (fuel-indexed; `n + 1` fuel
always suffices). -/
def digitsRevGo : Nat → Nat → List Nat
  | 0, _ => []
  | fuel + 1, n => if n = 0 then [] else n % 10 :: digitsRevGo fuel (n / 10)

/-- The character of one decimal digit. -/
def charOfDigit (d : Nat) : Char := Char.ofNat (48 + d)

/-- Decimal rendering of a natural number (Rust `{}` for an unsigned integer). -/
def natDigits (n : Nat) : Str :=
  if n = 0 then ['0'] else ((digitsRevGo (n + 1) n).reverse).map charOfDigit

/-- Rust `{:0w}` zero-padding: pad the rendering to width `w` with leading
zeros (longer renderings are kept whole). -/
def padZeros (w : Nat) (s : Str) : Str :=
  List.replicate (w - s.length) '0' ++ s

/-- The shape of a rendered timecode line: eight field tokens around the
`-->` arrow, with the separators `:`, `,` and spaces of the SubRip grammar. -/
def tcLineOf (a b c d e f g h : Str) : Str :=
  a ++ ':' :: (b ++ ':' :: (c ++ ',' :: (d ++
    ' ' :: '-' :: '-' :: '>' :: ' ' :: (e ++ ':' :: (f ++ ':' :: (g ++ ',' :: h))))))

/-- `format.rs`: `Display for SubRip` — the format string
`{}\n{:02}:{:02}:{:02},{:03} --> {:02}:{:02}:{:02},{:03}{}` where the last
piece folds `\n` plus each text line. -/
def display (r : SubRip) : Str :=
  natDigits r.position ++ '\n' ::
    (tcLineOf
      (padZeros 2 (natDigits r.start.hours))
      (padZeros 2 (natDigits r.start.minutes))
      (padZeros 2 (natDigits r.start.seconds))
      (padZeros 3 (natDigits r.start.milliseconds))
      (padZeros 2 (natDigits r.«end».hours))
      (padZeros 2 (natDigits r.«end».minutes))
      (padZeros 2 (natDigits r.«end».seconds))
      (padZeros 3 (natDigits r.«end».milliseconds)) ++
    r.text.foldl (fun acc l => acc ++ '\n' :: l) [])

/-- The text part of the rendering: `\n` before each text line (the fold in
`Display for SubRip`, written as structural recursion). -/
def textGlue : List Str → Str
  | [] => []
  | l :: ls => '\n' :: (l ++ textGlue ls)

/-- Decomposition of a rendered string into its `\n`-separated lines. -/
def linesOf : Str → List Str
  | [] => [[]]
  | c :: cs =>
    if c = '\n' then [] :: linesOf cs
    else
      match linesOf cs with
      | t :: ts => (c :: t) :: ts
      | [] => [[c]]

/-- ASCII encoding of a clean line (every char below 0x80). -/
def asciiBytes (l : Str) : List Byte := l.map Char.toNat

/-- Byte stream of a sequence of lines joined by `\n` (no trailing newline). -/
def encodeLines : List Str → List Byte
  | [] => []
  | [l] => asciiBytes l
  | l :: ls => asciiBytes l ++ 10 :: encodeLines ls


/-- Byte stream of a sequence of UTF-16 code units, little-endian. -/
def encU16LE : List Nat → List Byte
  | [] => []
  | u :: us => u % 256 :: u / 256 :: encU16LE us

/-- Byte stream of a sequence of UTF-16 code units, big-endian. -/
def encU16BE : List Nat → List Byte
  | [] => []
  | u :: us => u / 256 :: u % 256 :: encU16BE us

/-- The code units remaining after the first linefeed unit (all of them when
no linefeed occurs: the read then consumes the whole stream). -/
def afterNL (us : List Nat) : List Nat :=
  (us.dropWhile (fun u => u != 10)).drop 1

/-- Modelled from the spec, for comparison with the source machine: the spec
sentence for `AwaitTimecode` is "read exactly one line; parse as Timecode
pair", so this variant of `parseNextL` consumes exactly the next line of the
stream for the timecode instead of calling `skip_empty_lines`. -/
def parseNextOneLineL (ls : List Str) : Except Error (Option SubRip) × List Str :=
  match skipEmptyLinesL ls with
  | (none, ls1) => (.ok none, ls1)
  | (some line, ls1) =>
    match parsePosition line with
    | .error e => (.error ⟨.InvalidPosition, e⟩, ls1)
    | .ok none => (.ok none, ls1)
    | .ok (some pos) =>
      match ls1 with
      | [] => (.ok none, [])
      | tline :: ls2 =>
        match parseTimecode tline with
        | .error e => (.error ⟨.InvalidTimecode, e⟩, ls2)
        | .ok none => (.ok none, ls2)
        | .ok (some (st, en)) =>
          let (text, ls3) := textLoopL ls2 []
          (.ok (some ⟨pos, st, en, text⟩), ls3)

/-- A numeric token: non-empty, all decimal digits, value below `bound`. -/
def numericTok (bound : Nat) (l : Str) : Prop :=
  l ≠ [] ∧ l.all Char.isDigit ∧ digitsVal l < bound

instance (bound : Nat) (l : Str) : Decidable (numericTok bound l) := by
  unfold numericTok; infer_instance

/-- The token indices `parse_timecode` reads, with the bound of the machine
type each one is parsed into. -/
def reqFields : List (Nat × Nat) :=
  [(0, u8Bound), (1, u8Bound), (2, u8Bound), (3, u16Bound),
   (5, u8Bound), (6, u8Bound), (7, u8Bound), (8, u16Bound)]

/-- A character of well-formed ASCII text content: ASCII, and neither of the
line-terminator characters. -/
def cleanChar (c : Char) : Prop :=
  c.toNat < 128 ∧ c ≠ '\n' ∧ c ≠ '\r'

instance (c : Char) : Decidable (cleanChar c) := by
  unfold cleanChar; infer_instance

/-- A line of well-formed ASCII content. -/
def cleanLine (l : Str) : Prop := ∀ c ∈ l, cleanChar c

instance (l : Str) : Decidable (cleanLine l) := by
  unfold cleanLine; infer_instance

/-- A stream of well-formed ASCII lines. -/
def cleanLines (ls : List Str) : Prop := ∀ l ∈ ls, cleanLine l

instance (ls : List Str) : Decidable (cleanLines ls) := by
  unfold cleanLines; infer_instance

/-- The UTF-8 decoder state after its first decode. -/
def utf8S : Dec := ⟨.utf8, false⟩

/-- Little-endian decimal value of a digit list. -/
def valLE : List Nat → Nat
  | [] => 0
  | d :: ds => d + 10 * valLE ds

/-- The apostrophe character (kept out of string literals). -/
def apoC : Char := Char.ofNat 39

/-- First position line of the spec example stream. -/
def c2l1 : Str := "1433".data

/-- First timecode line of the spec example stream. -/
def c2l2 : Str := "01:04:00,705 --> 01:04:02,145".data

/-- First text line of the spec example stream. -/
def c2l3 : Str := "It".data ++ apoC :: "s only after".data

/-- Second text line of the spec example stream. -/
def c2l4 : Str := "we".data ++ apoC :: "ve lost everything".data

/-- Second position line of the spec example stream. -/
def c2l6 : Str := "1434".data

/-- Second timecode line of the spec example stream. -/
def c2l7 : Str := "01:04:02,170 --> 01:04:04,190".data

/-- Third text line of the spec example stream. -/
def c2l8 : Str := "that we".data ++ apoC :: "re free to do anything.".data

/-- The byte stream of the spec's two-record example. -/
def c2bytes : List Byte :=
  encodeLines [c2l1, c2l2, c2l3, c2l4, [], c2l6, c2l7, c2l8]

/-- The first record of the spec's two-record example. -/
def c2rec1 : SubRip :=
  ⟨1433, ⟨1, 4, 0, 705⟩, ⟨1, 4, 2, 145⟩, [c2l3, c2l4]⟩

/-- The second record of the spec's two-record example. -/
def c2rec2 : SubRip :=
  ⟨1434, ⟨1, 4, 2, 170⟩, ⟨1, 4, 4, 190⟩, [c2l8]⟩

/-- A well-formed timecode line used by several concrete streams. -/
def tcLine1 : Str := "01:02:03,456 --> 07:08:09,101".data

/-- A stream whose first record has a malformed position line (`1b`) followed
by further record lines, then a blank separator and a well-formed record. -/
def c1cexBytes : List Byte :=
  encodeLines ["1b".data, tcLine1, "hello".data, [], "2".data, tcLine1, "world".data]

/-- The well-formed record at the end of `c1cexBytes`. -/
def c1cexRec : SubRip :=
  ⟨2, ⟨1, 2, 3, 456⟩, ⟨7, 8, 9, 101⟩, ["world".data]⟩

/-- A line sequence with a blank line between the position line and the
timecode line. -/
def c5cexLines : List Str :=
  ["1".data, [], tcLine1, "hi".data]

/-- The record the source parser produces from `c5cexLines`. -/
def c5cexRec : SubRip :=
  ⟨1, ⟨1, 2, 3, 456⟩, ⟨7, 8, 9, 101⟩, ["hi".data]⟩

/-- A stream that ends immediately after a well-formed timecode line. -/
def c6cexBytes : List Byte :=
  encodeLines ["1".data, "00:00:00,000 --> 00:00:01,000".data]

/-- The record the source parser produces from `c6cexBytes` (empty text). -/
def c6cexRec : SubRip :=
  ⟨1, ⟨0, 0, 0, 0⟩, ⟨0, 0, 1, 0⟩, []⟩

/-- A UTF-16LE stream (BOM plus units U+0A41, U+6100, U+000A) on which the
line reader leaves an odd number of bytes unread. -/
def c8cexBytes : List Byte :=
  [0xFF, 0xFE] ++ encU16LE [0x0A41, 0x6100, 0x000A]

/-- A negative timecode line (the input of `core.rs`'s `negative_timecode`
test, which expects it to parse). -/
def negTcLine : Str := "00:-1:-58,-240 --> 00:-1:-55,-530".data

/-- A timecode line whose seconds field (300) exceeds the `u8` range. -/
def bigTcLine : Str := "00:00:300,000 --> 00:00:00,000".data

/-! ### Concrete runs of the embedded parser -/

set_option maxRecDepth 100000

/-- Skipping empty lines stops at a non-empty head. -/
theorem skipEmptyLinesL_cons (l : Str) (ls : List Str) (h : l ≠ []) :
    skipEmptyLinesL (l :: ls) = (some l, ls) := by
  simp [skipEmptyLinesL, h]

/-- Leading blank lines are transparent to `skip_empty_lines`. -/
theorem skipEmptyLinesL_replicate (k : Nat) (ls : List Str) :
    skipEmptyLinesL (List.replicate k [] ++ ls) = skipEmptyLinesL ls := by
  induction k with
  | zero => rfl
  | succ n ih => simpa [List.replicate_succ, skipEmptyLinesL] using ih

/-- A stream of blank lines only is end-of-stream for `skip_empty_lines`. -/
theorem skipEmptyLinesL_replicate_nil (k : Nat) :
    skipEmptyLinesL (List.replicate k []) = (none, []) := by
  simpa using skipEmptyLinesL_replicate k []

/-- The text loop appends every line of an all-non-empty stream and consumes
the stream. -/
theorem textLoopL_all_ne (ls : List Str) (h : ∀ l ∈ ls, l ≠ []) (acc : List Str) :
    textLoopL ls acc = (acc ++ ls, []) := by
  induction ls generalizing acc with
  | nil => simp [textLoopL]
  | cons l ls ih =>
    have hl : l ≠ [] := h l (by simp)
    simp [textLoopL, hl, ih (fun x hx => h x (by simp [hx]))]

/-- A decimal digit is not one of the split delimiters. -/
theorem isDigit_not_delim (c : Char) (h : c.isDigit = true) : isDelim c = false := by
  simp only [isDelim, Bool.or_eq_false_iff, decide_eq_false_iff_not]
  refine ⟨⟨?_, ?_⟩, ?_⟩ <;> (rintro rfl; exact absurd h (by decide))

/-- A decimal digit is not the sign character `+`. -/
theorem isDigit_ne_plus (c : Char) (h : c.isDigit = true) : c ≠ '+' := by
  rintro rfl; exact absurd h (by decide)

/-- Splitting a delimiter-free token followed by a delimiter peels the token. -/
theorem splitDelims_append (x : Str) (hx : ∀ c ∈ x, isDelim c = false)
    (d : Char) (hd : isDelim d = true) (rest : Str) :
    splitDelims (x ++ d :: rest) = x :: splitDelims rest := by
  induction x with
  | nil => simp [splitDelims, hd]
  | cons c cs ih =>
    have hc : isDelim c = false := hx c (by simp)
    simp [splitDelims, hc, ih (fun a ha => hx a (by simp [ha]))]

/-- A delimiter-free string splits into itself as a single token. -/
theorem splitDelims_no_delim (x : Str) (hx : ∀ c ∈ x, isDelim c = false) :
    splitDelims x = [x] := by
  induction x with
  | nil => rfl
  | cons c cs ih =>
    have hc : isDelim c = false := hx c (by simp)
    simp [splitDelims, hc, ih (fun a ha => hx a (by simp [ha]))]

/-- Every character of a numeric token is delimiter-free. -/
theorem numericTok_no_delim {bnd : Nat} {x : Str} (hx : numericTok bnd x) :
    ∀ c ∈ x, isDelim c = false :=
  fun c hc => isDigit_not_delim c (List.all_eq_true.mp hx.2.1 c hc)

/-- Unsigned parsing succeeds on a numeric token and returns its value. -/
theorem parseUnsigned_numeric (bnd : Nat) (l : Str) (h : numericTok bnd l) :
    parseUnsigned bnd l = .ok (digitsVal l) := by
  obtain ⟨hne, hdig, hlt⟩ := h
  match l, hne with
  | c :: rest, _ =>
    have hc : c.isDigit = true := List.all_eq_true.mp hdig c (by simp)
    have hplus : c ≠ '+' := isDigit_ne_plus c hc
    simp [parseUnsigned, hplus, hdig, hlt]

/-- A successful field fetch-and-parse means the token is present and parses. -/
theorem parseField_ok_inv (toks : List Str) (i bnd n : Nat)
    (h : parseField toks i bnd = .ok n) :
    ∃ t, toks.get? i = some t ∧ parseUnsigned bnd t = .ok n := by
  unfold parseField at h
  cases hg : toks.get? i with
  | none => rw [hg] at h; exact absurd h (by simp)
  | some t => rw [hg] at h; exact ⟨t, rfl, h⟩

/-- The timecode line built from eight numeric tokens splits into the nine
tokens of the SubRip grammar and parses into the corresponding pair. -/
theorem parseTimecode_build (a b c d e f g h : Str)
    (ha : numericTok u8Bound a) (hb : numericTok u8Bound b)
    (hc : numericTok u8Bound c) (hd : numericTok u16Bound d)
    (he : numericTok u8Bound e) (hf : numericTok u8Bound f)
    (hg : numericTok u8Bound g) (hh : numericTok u16Bound h) :
    splitDelims (tcLineOf a b c d e f g h) =
      [a, b, c, d, ['-', '-', '>'], e, f, g, h] ∧
    parseTimecode (tcLineOf a b c d e f g h) =
      .ok (some (⟨digitsVal a, digitsVal b, digitsVal c, digitsVal d⟩,
                 ⟨digitsVal e, digitsVal f, digitsVal g, digitsVal h⟩)) := by
  have hsplit : splitDelims (tcLineOf a b c d e f g h) =
      [a, b, c, d, ['-', '-', '>'], e, f, g, h] := by
    show splitDelims
        (a ++ ':' :: (b ++ ':' :: (c ++ ',' :: (d ++ ' ' ::
          (['-', '-', '>'] ++ ' ' :: (e ++ ':' :: (f ++ ':' :: (g ++ ',' :: h)))))))) =
      [a, b, c, d, ['-', '-', '>'], e, f, g, h]
    rw [splitDelims_append a (numericTok_no_delim ha) ':' (by decide),
      splitDelims_append b (numericTok_no_delim hb) ':' (by decide),
      splitDelims_append c (numericTok_no_delim hc) ',' (by decide),
      splitDelims_append d (numericTok_no_delim hd) ' ' (by decide),
      splitDelims_append ['-', '-', '>'] (by decide) ' ' (by decide),
      splitDelims_append e (numericTok_no_delim he) ':' (by decide),
      splitDelims_append f (numericTok_no_delim hf) ':' (by decide),
      splitDelims_append g (numericTok_no_delim hg) ',' (by decide),
      splitDelims_no_delim h (numericTok_no_delim hh)]
  refine ⟨hsplit, ?_⟩
  have hne : tcLineOf a b c d e f g h ≠ [] := by
    obtain ⟨hna, _, _⟩ := ha
    cases a with
    | nil => exact absurd rfl hna
    | cons x xs => simp [tcLineOf]
  rw [parseTimecode, if_neg hne]
  simp only [hsplit]
  have f0 : parseField [a, b, c, d, ['-', '-', '>'], e, f, g, h] 0 u8Bound =
      .ok (digitsVal a) := by
    simp [parseField, parseUnsigned_numeric _ _ ha]
  have f1 : parseField [a, b, c, d, ['-', '-', '>'], e, f, g, h] 1 u8Bound =
      .ok (digitsVal b) := by
    simp [parseField, parseUnsigned_numeric _ _ hb]
  have f2 : parseField [a, b, c, d, ['-', '-', '>'], e, f, g, h] 2 u8Bound =
      .ok (digitsVal c) := by
    simp [parseField, parseUnsigned_numeric _ _ hc]
  have f3 : parseField [a, b, c, d, ['-', '-', '>'], e, f, g, h] 3 u16Bound =
      .ok (digitsVal d) := by
    simp [parseField, parseUnsigned_numeric _ _ hd]
  have f5 : parseField [a, b, c, d, ['-', '-', '>'], e, f, g, h] 5 u8Bound =
      .ok (digitsVal e) := by
    simp [parseField, parseUnsigned_numeric _ _ he]
  have f6 : parseField [a, b, c, d, ['-', '-', '>'], e, f, g, h] 6 u8Bound =
      .ok (digitsVal f) := by
    simp [parseField, parseUnsigned_numeric _ _ hf]
  have f7 : parseField [a, b, c, d, ['-', '-', '>'], e, f, g, h] 7 u8Bound =
      .ok (digitsVal g) := by
    simp [parseField, parseUnsigned_numeric _ _ hg]
  have f8 : parseField [a, b, c, d, ['-', '-', '>'], e, f, g, h] 8 u16Bound =
      .ok (digitsVal h) := by
    simp [parseField, parseUnsigned_numeric _ _ hh]
  simp only [f0, f1, f2, f3, f5, f6, f7, f8]
  rfl

/-- Binding a successful `Except` computation applies the continuation. -/
theorem except_bind_ok {ε α β : Type} (a : α) (f : α → Except ε β) :
    (Except.ok a >>= f) = f a := rfl

/-- Binding a failed `Except` computation propagates the error. -/
theorem except_bind_error {ε α β : Type} (e : ε) (f : α → Except ε β) :
    ((Except.error e : Except ε α) >>= f) = .error e := rfl

/-- C3 amended: a well-formed timecode line made of eight numeric field
tokens splits into nine tokens — 0–3 the start fields, 4 the (never
validated) arrow, 5–8 the end fields — and parses into the corresponding
timecode pair; conversely a successful parse requires each of the eight
required token positions to hold a token that parses as an in-range number
(a missing or non-numeric token makes `parse_timecode` fail). -/
theorem c3_timecode_tokens :
    (∀ a b c d e f g h : Str,
      numericTok u8Bound a → numericTok u8Bound b → numericTok u8Bound c →
      numericTok u16Bound d → numericTok u8Bound e → numericTok u8Bound f →
      numericTok u8Bound g → numericTok u16Bound h →
      splitDelims (tcLineOf a b c d e f g h) =
        [a, b, c, d, ['-', '-', '>'], e, f, g, h] ∧
      parseTimecode (tcLineOf a b c d e f g h) =
        .ok (some (⟨digitsVal a, digitsVal b, digitsVal c, digitsVal d⟩,
                   ⟨digitsVal e, digitsVal f, digitsVal g, digitsVal h⟩))) ∧
    (∀ (l : Str) (v : Timecode × Timecode), parseTimecode l = .ok (some v) →
      ∀ ib ∈ reqFields, ∃ t, (splitDelims l).get? ib.1 = some t ∧
        ∃ n, parseUnsigned ib.2 t = .ok n) := by
  refine ⟨fun a b c d e f g h ha hb hc hd he hf hg hh =>
    parseTimecode_build a b c d e f g h ha hb hc hd he hf hg hh, ?_⟩
  intro l v hok ib hmem
  by_cases hl : l = []
  · rw [hl] at hok
    exact absurd hok (by simp [parseTimecode])
  · simp only [parseTimecode, if_neg hl] at hok
    cases h0 : parseField (splitDelims l) 0 u8Bound with
    | error e0 => simp [h0, except_bind_error] at hok
    | ok n0 =>
    simp only [h0, except_bind_ok] at hok
    cases h1 : parseField (splitDelims l) 1 u8Bound with
    | error e1 => simp [h1, except_bind_error] at hok
    | ok n1 =>
    simp only [h1, except_bind_ok] at hok
    cases h2 : parseField (splitDelims l) 2 u8Bound with
    | error e2 => simp [h2, except_bind_error] at hok
    | ok n2 =>
    simp only [h2, except_bind_ok] at hok
    cases h3 : parseField (splitDelims l) 3 u16Bound with
    | error e3 => simp [h3, except_bind_error] at hok
    | ok n3 =>
    simp only [h3, except_bind_ok] at hok
    cases h5 : parseField (splitDelims l) 5 u8Bound with
    | error e5 => simp [h5, except_bind_error] at hok
    | ok n5 =>
    simp only [h5, except_bind_ok] at hok
    cases h6 : parseField (splitDelims l) 6 u8Bound with
    | error e6 => simp [h6, except_bind_error] at hok
    | ok n6 =>
    simp only [h6, except_bind_ok] at hok
    cases h7 : parseField (splitDelims l) 7 u8Bound with
    | error e7 => simp [h7, except_bind_error] at hok
    | ok n7 =>
    simp only [h7, except_bind_ok] at hok
    cases h8 : parseField (splitDelims l) 8 u16Bound with
    | error e8 => simp [h8, except_bind_error] at hok
    | ok n8 =>
    simp only [reqFields, List.mem_cons, List.not_mem_nil, or_false] at hmem
    rcases hmem with rfl | rfl | rfl | rfl | rfl | rfl | rfl | rfl
    · obtain ⟨t, hget, hp⟩ := parseField_ok_inv _ _ _ _ h0
      exact ⟨t, hget, n0, hp⟩
    · obtain ⟨t, hget, hp⟩ := parseField_ok_inv _ _ _ _ h1
      exact ⟨t, hget, n1, hp⟩
    · obtain ⟨t, hget, hp⟩ := parseField_ok_inv _ _ _ _ h2
      exact ⟨t, hget, n2, hp⟩
    · obtain ⟨t, hget, hp⟩ := parseField_ok_inv _ _ _ _ h3
      exact ⟨t, hget, n3, hp⟩
    · obtain ⟨t, hget, hp⟩ := parseField_ok_inv _ _ _ _ h5
      exact ⟨t, hget, n5, hp⟩
    · obtain ⟨t, hget, hp⟩ := parseField_ok_inv _ _ _ _ h6
      exact ⟨t, hget, n6, hp⟩
    · obtain ⟨t, hget, hp⟩ := parseField_ok_inv _ _ _ _ h7
      exact ⟨t, hget, n7, hp⟩
    · obtain ⟨t, hget, hp⟩ := parseField_ok_inv _ _ _ _ h8
      exact ⟨t, hget, n8, hp⟩

/-- Appending one character multiplies the accumulated value by ten. -/
theorem digitsVal_append_single (xs : Str) (c : Char) :
    digitsVal (xs ++ [c]) = 10 * digitsVal xs + (c.toNat - 48) := by
  simp [digitsVal, List.foldl_append, Nat.mul_comm]

/-- The fuel-indexed digit expansion is exact when the fuel exceeds `n`. -/
theorem valLE_digitsRevGo (fuel : Nat) : ∀ n, n < fuel →
    valLE (digitsRevGo fuel n) = n := by
  induction fuel with
  | zero => omega
  | succ f ih =>
    intro n hn
    by_cases h0 : n = 0
    · subst h0; simp [digitsRevGo, valLE]
    · have h1 : n / 10 < n := Nat.div_lt_self (Nat.pos_of_ne_zero h0) (by omega)
      have := ih (n / 10) (by omega)
      simp [digitsRevGo, h0, valLE, this]
      omega

/-- Every entry of the digit expansion is a decimal digit. -/
theorem digitsRevGo_lt (fuel : Nat) : ∀ n, ∀ d ∈ digitsRevGo fuel n, d < 10 := by
  induction fuel with
  | zero => simp [digitsRevGo]
  | succ f ih =>
    intro n d hd
    by_cases h0 : n = 0
    · subst h0; simp [digitsRevGo] at hd
    · simp only [digitsRevGo, h0, if_false, List.mem_cons] at hd
      rcases hd with rfl | hd
      · exact Nat.mod_lt _ (by omega)
      · exact ih _ d hd

/-- A digit character is a digit. -/
theorem charOfDigit_digit : ∀ d, d < 10 → (charOfDigit d).isDigit = true := by decide

/-- A digit character is clean ASCII text content. -/
theorem charOfDigit_clean : ∀ d, d < 10 → cleanChar (charOfDigit d) := by decide

/-- The code of a digit character. -/
theorem charOfDigit_toNat : ∀ d, d < 10 → (charOfDigit d).toNat = 48 + d := by decide

/-- Reading the reversed digit expansion back as a decimal numeral. -/
theorem digitsVal_reverse_map (ds : List Nat) (h : ∀ d ∈ ds, d < 10) :
    digitsVal (ds.reverse.map charOfDigit) = valLE ds := by
  induction ds with
  | nil => rfl
  | cons d ds ih =>
    have hd : d < 10 := h d (by simp)
    simp only [List.reverse_cons, List.map_append, List.map_cons, List.map_nil,
      digitsVal_append_single, ih (fun x hx => h x (by simp [hx])),
      charOfDigit_toNat d hd, valLE]
    omega

/-- The decimal rendering of `n` reads back as `n`. -/
theorem natDigits_val (n : Nat) : digitsVal (natDigits n) = n := by
  by_cases h0 : n = 0
  · subst h0; rfl
  · rw [natDigits, if_neg h0,
      digitsVal_reverse_map _ (digitsRevGo_lt (n + 1) n),
      valLE_digitsRevGo (n + 1) n (by omega)]

/-- The decimal rendering consists of digit characters. -/
theorem natDigits_all_digit (n : Nat) : (natDigits n).all Char.isDigit = true := by
  by_cases h0 : n = 0
  · subst h0; decide
  · simp only [natDigits, h0, if_false, List.all_eq_true]
    intro c hc
    obtain ⟨d, hd, rfl⟩ := List.mem_map.mp hc
    exact charOfDigit_digit d (digitsRevGo_lt _ _ d (List.mem_reverse.mp hd))

/-- The decimal rendering is never empty. -/
theorem natDigits_ne_nil (n : Nat) : natDigits n ≠ [] := by
  by_cases h0 : n = 0
  · subst h0; decide
  · have hgo : digitsRevGo (n + 1) n = n % 10 :: digitsRevGo n (n / 10) := by
      simp [digitsRevGo, h0]
    simp [natDigits, h0, hgo]

/-- The decimal rendering is clean ASCII text content. -/
theorem natDigits_clean (n : Nat) : ∀ c ∈ natDigits n, cleanChar c := by
  by_cases h0 : n = 0
  · subst h0; decide
  · intro c hc
    simp only [natDigits, h0, if_false] at hc
    obtain ⟨d, hd, rfl⟩ := List.mem_map.mp hc
    exact charOfDigit_clean d (digitsRevGo_lt _ _ d (List.mem_reverse.mp hd))

/-- Clean content contains no linefeed. -/
theorem clean_no_nl {x : Str} (h : ∀ c ∈ x, cleanChar c) : '\n' ∉ x :=
  fun hc => (h _ hc).2.1 rfl

/-- Leading zeros do not change the decimal value. -/
theorem digitsVal_replicate_zero (k : Nat) (s : Str) :
    digitsVal (List.replicate k '0' ++ s) = digitsVal s := by
  induction k with
  | zero => rfl
  | succ m ih =>
    have hstep : digitsVal (List.replicate (m + 1) '0' ++ s) =
        digitsVal (List.replicate m '0' ++ s) := by
      simp [List.replicate_succ, digitsVal]
    rw [hstep, ih]

/-- Zero-padding preserves being a numeric token. -/
theorem numericTok_padZeros (bnd w : Nat) (s : Str) (h : numericTok bnd s) :
    numericTok bnd (padZeros w s) := by
  obtain ⟨h1, h2, h3⟩ := h
  refine ⟨?_, ?_, ?_⟩
  · rw [padZeros]
    intro hc
    exact h1 (List.append_eq_nil.mp hc).2
  · simp only [padZeros, List.all_append, Bool.and_eq_true, h2, and_true]
    simp only [List.all_eq_true]
    intro c hc
    rw [List.eq_of_mem_replicate hc]
    decide
  · rw [padZeros, digitsVal_replicate_zero]
    exact h3

/-- Zero-padding preserves clean content. -/
theorem padZeros_clean (w : Nat) (s : Str) (h : ∀ c ∈ s, cleanChar c) :
    ∀ c ∈ padZeros w s, cleanChar c := by
  intro c hc
  rcases List.mem_append.mp hc with hc | hc
  · rw [List.eq_of_mem_replicate hc]; decide
  · exact h c hc

/-- Rendering then parsing a position value is the identity. -/
theorem parsePosition_natDigits (n : Nat) (h : n < usizeBound) :
    parsePosition (natDigits n) = .ok (some n) := by
  have hnum : numericTok usizeBound (natDigits n) :=
    ⟨natDigits_ne_nil n, natDigits_all_digit n, by rw [natDigits_val]; exact h⟩
  simp [parsePosition, natDigits_ne_nil n, parseUnsigned_numeric _ _ hnum,
    natDigits_val, Except.map]

/-- A timecode line built from clean tokens has only clean characters. -/
theorem tcLineOf_clean (a b c d e f g h : Str)
    (ha : ∀ x ∈ a, cleanChar x) (hb : ∀ x ∈ b, cleanChar x)
    (hc : ∀ x ∈ c, cleanChar x) (hd : ∀ x ∈ d, cleanChar x)
    (he : ∀ x ∈ e, cleanChar x) (hf : ∀ x ∈ f, cleanChar x)
    (hg : ∀ x ∈ g, cleanChar x) (hh : ∀ x ∈ h, cleanChar x) :
    ∀ x ∈ tcLineOf a b c d e f g h, cleanChar x := by
  intro x hx
  simp only [tcLineOf] at hx
  rcases List.mem_append.mp hx with hx | hx
  · exact ha x hx
  rcases List.mem_cons.mp hx with rfl | hx
  · decide
  rcases List.mem_append.mp hx with hx | hx
  · exact hb x hx
  rcases List.mem_cons.mp hx with rfl | hx
  · decide
  rcases List.mem_append.mp hx with hx | hx
  · exact hc x hx
  rcases List.mem_cons.mp hx with rfl | hx
  · decide
  rcases List.mem_append.mp hx with hx | hx
  · exact hd x hx
  rcases List.mem_cons.mp hx with rfl | hx
  · decide
  rcases List.mem_cons.mp hx with rfl | hx
  · decide
  rcases List.mem_cons.mp hx with rfl | hx
  · decide
  rcases List.mem_cons.mp hx with rfl | hx
  · decide
  rcases List.mem_cons.mp hx with rfl | hx
  · decide
  rcases List.mem_append.mp hx with hx | hx
  · exact he x hx
  rcases List.mem_cons.mp hx with rfl | hx
  · decide
  rcases List.mem_append.mp hx with hx | hx
  · exact hf x hx
  rcases List.mem_cons.mp hx with rfl | hx
  · decide
  rcases List.mem_append.mp hx with hx | hx
  · exact hg x hx
  rcases List.mem_cons.mp hx with rfl | hx
  · decide
  exact hh x hx

/-- A rendered timecode line is never empty. -/
theorem tcLineOf_ne_nil (a b c d e f g h : Str) (ha : a ≠ []) :
    tcLineOf a b c d e f g h ≠ [] := by
  cases a with
  | nil => exact absurd rfl ha
  | cons x xs => simp [tcLineOf]

/-- Splitting at the first linefeed of a rendering. -/
theorem linesOf_append (x : Str) (hx : '\n' ∉ x) (rest : Str) :
    linesOf (x ++ '\n' :: rest) = x :: linesOf rest := by
  induction x with
  | nil => simp [linesOf]
  | cons c cs ih =>
    have hc : ¬(c = '\n') := fun hcc => hx (by simp [hcc])
    simp [linesOf, hc, ih (fun hmm => hx (by simp [hmm]))]

/-- A linefeed-free rendering is a single line. -/
theorem linesOf_no_nl (x : Str) (hx : '\n' ∉ x) : linesOf x = [x] := by
  induction x with
  | nil => rfl
  | cons c cs ih =>
    have hc : ¬(c = '\n') := fun hcc => hx (by simp [hcc])
    simp [linesOf, hc, ih (fun hmm => hx (by simp [hmm]))]

/-- The display fold over text lines is the glue of the text lines. -/
theorem foldl_textGlue (text : List Str) : ∀ acc : Str,
    text.foldl (fun a l => a ++ '\n' :: l) acc = acc ++ textGlue text := by
  induction text with
  | nil => intro acc; simp [textGlue]
  | cons l ls ih =>
    intro acc
    simp [textGlue, ih, List.append_assoc]

/-- Line decomposition of a head line glued to text lines. -/
theorem linesOf_glue (text : List Str) (htext : ∀ l ∈ text, '\n' ∉ l) :
    ∀ tc : Str, '\n' ∉ tc → linesOf (tc ++ textGlue text) = tc :: text := by
  induction text with
  | nil =>
    intro tc htc
    simp [textGlue, linesOf_no_nl tc htc]
  | cons l ls ih =>
    intro tc htc
    rw [textGlue, linesOf_append tc htc,
      ih (fun x hx => htext x (by simp [hx])) l (htext l (by simp))]

/-- A stream of one well-formed position line, one well-formed timecode line
and non-empty text lines parses into exactly that record, consuming the
stream. -/
theorem parseNextL_record (p tc : Str) (v : Nat) (st en : Timecode)
    (text : List Str) (hp : p ≠ []) (htc : tc ≠ [])
    (hv : parsePosition p = .ok (some v))
    (ht : parseTimecode tc = .ok (some (st, en)))
    (htext : ∀ l ∈ text, l ≠ []) :
    parseNextL (p :: tc :: text) = (.ok (some ⟨v, st, en, text⟩), []) := by
  simp only [parseNextL, skipEmptyLinesL_cons p _ hp, hv,
    skipEmptyLinesL_cons tc _ htc, ht, textLoopL_all_ne text htext [],
    List.nil_append]

/-- A zero-padded decimal rendering reads back as its value. -/
theorem digitsVal_pad_natDigits (w v : Nat) :
    digitsVal (padZeros w (natDigits v)) = v := by
  rw [padZeros, digitsVal_replicate_zero, natDigits_val]

/-- A zero-padded decimal rendering is never empty. -/
theorem padZeros_natDigits_ne_nil (w v : Nat) :
    padZeros w (natDigits v) ≠ [] := fun hc =>
  natDigits_ne_nil v (List.append_eq_nil.mp hc).2

/-- An in-range value yields a numeric token after padding. -/
theorem numericTok_pad_natDigits (bnd w v : Nat) (h : v < bnd) :
    numericTok bnd (padZeros w (natDigits v)) :=
  numericTok_padZeros bnd w _
    ⟨natDigits_ne_nil v, natDigits_all_digit v, by rw [natDigits_val]; exact h⟩

/-- The rendering of a record, split at linefeeds, re-parses at the line
level into a record equal to the original (the line-level half of the
round-trip). -/
theorem display_roundtrip_lines (r : SubRip)
    (hpos : r.position < usizeBound)
    (hsh : r.start.hours ≤ 99) (hsm : r.start.minutes ≤ 99)
    (hss : r.start.seconds ≤ 99) (hsms : r.start.milliseconds ≤ 999)
    (heh : r.«end».hours ≤ 99) (hem : r.«end».minutes ≤ 99)
    (hes : r.«end».seconds ≤ 99) (hems : r.«end».milliseconds ≤ 999)
    (htext : ∀ l ∈ r.text, l ≠ [] ∧ ∀ c ∈ l, cleanChar c) :
    parseNextL (linesOf (display r)) = (.ok (some r), []) := by
  have t1 := numericTok_pad_natDigits u8Bound 2 r.start.hours (by unfold u8Bound; omega)
  have t2 := numericTok_pad_natDigits u8Bound 2 r.start.minutes (by unfold u8Bound; omega)
  have t3 := numericTok_pad_natDigits u8Bound 2 r.start.seconds (by unfold u8Bound; omega)
  have t4 := numericTok_pad_natDigits u16Bound 3 r.start.milliseconds (by unfold u16Bound; omega)
  have t5 := numericTok_pad_natDigits u8Bound 2 r.«end».hours (by unfold u8Bound; omega)
  have t6 := numericTok_pad_natDigits u8Bound 2 r.«end».minutes (by unfold u8Bound; omega)
  have t7 := numericTok_pad_natDigits u8Bound 2 r.«end».seconds (by unfold u8Bound; omega)
  have t8 := numericTok_pad_natDigits u16Bound 3 r.«end».milliseconds (by unfold u16Bound; omega)
  have hbuild := parseTimecode_build _ _ _ _ _ _ _ _ t1 t2 t3 t4 t5 t6 t7 t8
  have htcclean := tcLineOf_clean _ _ _ _ _ _ _ _
    (padZeros_clean 2 _ (natDigits_clean r.start.hours))
    (padZeros_clean 2 _ (natDigits_clean r.start.minutes))
    (padZeros_clean 2 _ (natDigits_clean r.start.seconds))
    (padZeros_clean 3 _ (natDigits_clean r.start.milliseconds))
    (padZeros_clean 2 _ (natDigits_clean r.«end».hours))
    (padZeros_clean 2 _ (natDigits_clean r.«end».minutes))
    (padZeros_clean 2 _ (natDigits_clean r.«end».seconds))
    (padZeros_clean 3 _ (natDigits_clean r.«end».milliseconds))
  have hlines : linesOf (display r) =
      natDigits r.position ::
        tcLineOf
          (padZeros 2 (natDigits r.start.hours))
          (padZeros 2 (natDigits r.start.minutes))
          (padZeros 2 (natDigits r.start.seconds))
          (padZeros 3 (natDigits r.start.milliseconds))
          (padZeros 2 (natDigits r.«end».hours))
          (padZeros 2 (natDigits r.«end».minutes))
          (padZeros 2 (natDigits r.«end».seconds))
          (padZeros 3 (natDigits r.«end».milliseconds)) :: r.text := by
    rw [display, foldl_textGlue r.text [], List.nil_append,
      linesOf_append _ (clean_no_nl (natDigits_clean r.position)),
      linesOf_glue r.text (fun l hl => clean_no_nl (htext l hl).2) _
        (clean_no_nl htcclean)]
  have ht : parseTimecode
      (tcLineOf
        (padZeros 2 (natDigits r.start.hours))
        (padZeros 2 (natDigits r.start.minutes))
        (padZeros 2 (natDigits r.start.seconds))
        (padZeros 3 (natDigits r.start.milliseconds))
        (padZeros 2 (natDigits r.«end».hours))
        (padZeros 2 (natDigits r.«end».minutes))
        (padZeros 2 (natDigits r.«end».seconds))
        (padZeros 3 (natDigits r.«end».milliseconds))) =
      .ok (some (r.start, r.«end»)) := by
    rw [hbuild.2]
    simp only [digitsVal_pad_natDigits]
  rw [hlines,
    parseNextL_record _ _ r.position r.start r.«end» r.text
      (natDigits_ne_nil r.position)
      (tcLineOf_ne_nil _ _ _ _ _ _ _ _ (padZeros_natDigits_ne_nil 2 r.start.hours))
      (parsePosition_natDigits r.position hpos) ht
      (fun l hl => (htext l hl).1)]

/-- Reading past a non-terminator byte. -/
theorem readUntil_cons_ne (t b : Byte) (bs : List Byte) (h : ¬(b = t)) :
    readUntil t (b :: bs) = (b :: (readUntil t bs).1, (readUntil t bs).2) := by
  simp [readUntil, h]

/-- Reading stops at the terminator byte. -/
theorem readUntil_cons_eq (t : Byte) (bs : List Byte) :
    readUntil t (t :: bs) = ([t], bs) := by
  simp [readUntil]

/-- No byte-order mark is recognized in ASCII content. -/
theorem forBom_ascii (bs : List Byte) (h : ∀ b ∈ bs, b < 128) :
    forBom bs = none := by
  unfold forBom
  split
  · exact absurd (h 0xEF (by simp)) (by decide)
  · exact absurd (h 0xFE (by simp)) (by decide)
  · exact absurd (h 0xFF (by simp)) (by decide)
  · rfl

/-- Stripping a byte-order mark from ASCII content is the identity. -/
theorem stripBom_ascii (e : Enc) (bs : List Byte) (h : ∀ b ∈ bs, b < 128) :
    stripBom e bs = bs := by
  unfold stripBom
  split
  · exact absurd (h 0xEF (by simp)) (by decide)
  · exact absurd (h 0xFE (by simp)) (by decide)
  · exact absurd (h 0xFF (by simp)) (by decide)
  · rfl

/-- Bytes of a clean line are ASCII. -/
theorem asciiBytes_lt (l : Str) (h : cleanLine l) :
    ∀ b ∈ asciiBytes l, b < 128 := by
  intro b hb
  obtain ⟨c, hc, rfl⟩ := List.mem_map.mp hb
  exact (h c hc).1

/-- Bytes of a clean line never contain the linefeed byte. -/
theorem not_mem_10_asciiBytes (l : Str) (h : cleanLine l) :
    (10 : Nat) ∉ asciiBytes l := by
  intro hb
  obtain ⟨c, hc, hceq⟩ := List.mem_map.mp hb
  have hcn : c = Char.ofNat 10 := by rw [← Char.ofNat_toNat c, hceq]
  rw [show Char.ofNat 10 = '\n' by decide] at hcn
  exact (h c hc).2.1 hcn

/-- UTF-8 decoding distributes over concatenation. -/
theorem decodeUtf8_append (a b : List Byte) :
    decodeUtf8 (a ++ b) = decodeUtf8 a ++ decodeUtf8 b := by
  simp [decodeUtf8]

/-- UTF-8 decoding of the bytes of a clean line recovers the line. -/
theorem decodeUtf8_ascii (l : Str) (h : cleanLine l) :
    decodeUtf8 (asciiBytes l) = l := by
  induction l with
  | nil => rfl
  | cons c cs ih =>
    have hc := (h c (by simp)).1
    have ih2 := ih (fun x hx => h x (by simp [hx]))
    show (if c.toNat < 0x80 then Char.ofNat c.toNat else repl) ::
        decodeUtf8 (asciiBytes cs) = c :: cs
    rw [if_pos hc, Char.ofNat_toNat, ih2]

/-- Reading with no terminator present consumes the whole stream. -/
theorem readUntil_no_t (t : Byte) (bs : List Byte) (h : t ∉ bs) :
    readUntil t bs = (bs, []) := by
  induction bs with
  | nil => rfl
  | cons b bs ih =>
    have hb : ¬(b = t) := fun hh => h (by simp [hh])
    rw [readUntil_cons_ne t b bs hb, ih (fun hh => h (by simp [hh]))]

/-- Reading up to a terminator that follows terminator-free content. -/
theorem readUntil_append (t : Byte) (b rest : List Byte) (h : t ∉ b) :
    readUntil t (b ++ t :: rest) = (b ++ [t], rest) := by
  induction b with
  | nil => simp [readUntil_cons_eq]
  | cons x xs ih =>
    have hx : ¬(x = t) := fun hh => h (by simp [hh])
    rw [List.cons_append, readUntil_cons_ne t x _ hx,
      ih (fun hh => h (by simp [hh]))]
    simp

/-- Trimming is the identity on a linefeed-free line. -/
theorem trimNewline_no_nl (l : Str) (h : '\n' ∉ l) : trimNewline l = l := by
  have hlast : l.getLast? ≠ some '\n' :=
    fun hc => h (List.mem_of_mem_getLast? hc)
  simp [trimNewline, hlast]

/-- Trimming strips exactly the trailing linefeed of a clean line. -/
theorem trimNewline_concat (l : Str) (h : '\r' ∉ l) :
    trimNewline (l ++ ['\n']) = l := by
  have hlast : (l ++ ['\n']).getLast? = some '\n' := List.getLast?_concat l
  have hlr : l.getLast? ≠ some '\r' := by
    intro hc
    exact h (List.mem_of_mem_getLast? hc)
  simp [trimNewline, hlast, List.dropLast_concat, hlr]

/-- EOF leaves the reader state unchanged. -/
theorem nextLineB_eof (d : Dec) : nextLineB ⟨some d, []⟩ = (none, ⟨some d, []⟩) := by
  rcases d with ⟨e, f⟩
  cases e <;> rfl

/-- One line pull on an ASCII line stream: the head line is decoded and the
remainder is the encoding of the tail (both on the first pull, when the
decoder is not yet established and UTF-8 is selected by default, and on later
pulls). -/
theorem nextLineB_ascii (d0 : Option Dec) (hd0 : d0 = none ∨ d0 = some utf8S)
    (l : Str) (hl : cleanLine l) (ls : List Str) (hne : l ≠ [] ∨ ls ≠ []) :
    nextLineB ⟨d0, encodeLines (l :: ls)⟩ =
      (some l, ⟨some utf8S, encodeLines ls⟩) := by
  have hlt := asciiBytes_lt l hl
  have h10 := not_mem_10_asciiBytes l hl
  have hnl : '\n' ∉ l := fun hc => (hl _ hc).2.1 rfl
  have hcr : '\r' ∉ l := fun hc => (hl _ hc).2.2 rfl
  cases ls with
  | nil =>
    have hlne : l ≠ [] := by
      rcases hne with h | h
      · exact h
      · exact absurd rfl h
    have hru : readUntil 10 (asciiBytes l) = (asciiBytes l, []) :=
      readUntil_no_t _ _ h10
    have hbom : forBom (asciiBytes l) = none := forBom_ascii _ hlt
    have hbne : asciiBytes l ≠ [] := by simp [asciiBytes, hlne]
    rcases hd0 with rfl | rfl <;>
      simp [nextLineB, encodeLines, hru, hbom, hbne, decodeChunk, utf8S,
        stripBom_ascii _ _ hlt, decodeUtf8_ascii l hl, trimNewline_no_nl l hnl]
  | cons l2 ls2 =>
    have hru := readUntil_append 10 (asciiBytes l) (encodeLines (l2 :: ls2)) h10
    have hlt2 : ∀ b ∈ asciiBytes l ++ [10], b < 128 := by
      intro b hb
      rcases List.mem_append.mp hb with hb | hb
      · exact hlt b hb
      · simp only [List.mem_singleton] at hb
        subst hb
        decide
    have hbom : forBom (asciiBytes l ++ [10]) = none := forBom_ascii _ hlt2
    have hbne : asciiBytes l ++ [10] ≠ [] := by simp
    have hdec : decodeUtf8 (asciiBytes l ++ [10]) = l ++ ['\n'] := by
      rw [decodeUtf8_append, decodeUtf8_ascii l hl]
      rfl
    have henc : encodeLines (l :: l2 :: ls2) =
        asciiBytes l ++ 10 :: encodeLines (l2 :: ls2) := rfl
    rcases hd0 with rfl | rfl <;>
      simp [nextLineB, henc, hru, hbom, hbne, decodeChunk, utf8S,
        stripBom_ascii _ _ hlt2, hdec, trimNewline_concat l hcr]

/-- Consuming one line strictly shortens the encoded stream (except for the
empty terminal stream). -/
theorem encodeLines_length_lt (l : Str) (ls : List Str) (hne : l ≠ [] ∨ ls ≠ []) :
    (encodeLines ls).length < (encodeLines (l :: ls)).length := by
  cases ls with
  | nil =>
    have hl : l ≠ [] := by
      rcases hne with h | h
      · exact h
      · exact absurd rfl h
    show (encodeLines []).length < (asciiBytes l).length
    simp [encodeLines, asciiBytes]
    exact List.length_pos.mpr hl
  | cons a b =>
    show (encodeLines (a :: b)).length <
      (asciiBytes l ++ 10 :: encodeLines (a :: b)).length
    simp [asciiBytes]
    omega

/-- The tail of a clean line stream is clean. -/
theorem cleanLines_tail {l : Str} {ls : List Str} (h : cleanLines (l :: ls)) :
    cleanLines ls :=
  fun x hx => h x (by simp [hx])

/-- Skipping empty lines over an encoded ASCII stream agrees with the
line-level skip (given fuel above the byte count, as the wrapper supplies). -/
theorem skipEmptyGo_ascii (ls : List Str) (hcl : cleanLines ls) :
    ∀ fuel, (encodeLines ls).length < fuel →
    skipEmptyGo fuel ⟨some utf8S, encodeLines ls⟩ =
      ((skipEmptyLinesL ls).1,
        ⟨some utf8S, encodeLines (skipEmptyLinesL ls).2⟩) := by
  induction ls with
  | nil =>
    intro fuel hf
    obtain ⟨f, rfl⟩ : ∃ f, fuel = f + 1 := ⟨fuel - 1, by omega⟩
    simp [skipEmptyGo, encodeLines, nextLineB_eof, skipEmptyLinesL]
  | cons l ls ih =>
    intro fuel hf
    obtain ⟨f, rfl⟩ : ∃ f, fuel = f + 1 := ⟨fuel - 1, by omega⟩
    by_cases hterm : l = [] ∧ ls = []
    · obtain ⟨rfl, rfl⟩ := hterm
      simp [skipEmptyGo, asciiBytes, nextLineB_eof, skipEmptyLinesL, encodeLines]
    · have hne : l ≠ [] ∨ ls ≠ [] := by tauto
      have hW := nextLineB_ascii (some utf8S) (Or.inr rfl) l (hcl l (by simp)) ls hne
      by_cases hl : l = []
      · subst hl
        have hlen : (encodeLines ls).length < f := by
          have := encodeLines_length_lt [] ls hne
          omega
        simp only [skipEmptyGo, hW, if_pos rfl]
        rw [ih (cleanLines_tail hcl) f hlen]
        simp [skipEmptyLinesL]
      · simp [skipEmptyGo, hW, hl, skipEmptyLinesL]

/-- The text loop over an encoded ASCII stream agrees with the line-level
text loop (given fuel above the byte count, as the wrapper supplies). -/
theorem textLoopGo_ascii (ls : List Str) (hcl : cleanLines ls) :
    ∀ fuel acc, (encodeLines ls).length < fuel →
    textLoopGo fuel ⟨some utf8S, encodeLines ls⟩ acc =
      ((textLoopL ls acc).1, ⟨some utf8S, encodeLines (textLoopL ls acc).2⟩) := by
  induction ls with
  | nil =>
    intro fuel acc hf
    obtain ⟨f, rfl⟩ : ∃ f, fuel = f + 1 := ⟨fuel - 1, by omega⟩
    simp [textLoopGo, encodeLines, nextLineB_eof, textLoopL]
  | cons l ls ih =>
    intro fuel acc hf
    obtain ⟨f, rfl⟩ : ∃ f, fuel = f + 1 := ⟨fuel - 1, by omega⟩
    by_cases hterm : l = [] ∧ ls = []
    · obtain ⟨rfl, rfl⟩ := hterm
      simp [textLoopGo, asciiBytes, nextLineB_eof, textLoopL, encodeLines]
    · have hne : l ≠ [] ∨ ls ≠ [] := by tauto
      have hW := nextLineB_ascii (some utf8S) (Or.inr rfl) l (hcl l (by simp)) ls hne
      by_cases hl : l = []
      · subst hl
        simp [textLoopGo, hW, textLoopL]
      · have hlen : (encodeLines ls).length < f := by
          have := encodeLines_length_lt l ls hne
          omega
        simp only [textLoopGo, hW, if_neg hl]
        rw [ih (cleanLines_tail hcl) f (acc ++ [l]) hlen]
        simp [textLoopL, hl]

/-- Line decompositions are never the empty list. -/
theorem linesOf_ne_nil (s : Str) : linesOf s ≠ [] := by
  cases s with
  | nil => simp [linesOf]
  | cons c cs =>
    by_cases hc : c = '\n'
    · simp [linesOf, hc]
    · simp only [linesOf, hc, if_false]
      cases h : linesOf cs <;> simp

/-- Re-encoding the line decomposition of a rendering recovers its bytes. -/
theorem encodeLines_linesOf (s : Str) : encodeLines (linesOf s) = asciiBytes s := by
  induction s with
  | nil => rfl
  | cons c cs ih =>
    by_cases hc : c = '\n'
    · subst hc
      rw [show linesOf ('\n' :: cs) = [] :: linesOf cs by simp [linesOf]]
      cases h : linesOf cs with
      | nil => exact absurd h (linesOf_ne_nil cs)
      | cons t ts =>
        rw [h] at ih
        show asciiBytes [] ++ 10 :: encodeLines (t :: ts) = asciiBytes ('\n' :: cs)
        rw [ih]
        rfl
    · cases h : linesOf cs with
      | nil => exact absurd h (linesOf_ne_nil cs)
      | cons t ts =>
        rw [show linesOf (c :: cs) = (c :: t) :: ts by simp [linesOf, hc, h]]
        rw [h] at ih
        cases ts with
        | nil =>
          show asciiBytes (c :: t) = asciiBytes (c :: cs)
          have : asciiBytes t = asciiBytes cs := ih
          simp [asciiBytes] at this ⊢
          exact this
        | cons t2 ts2 =>
          show asciiBytes (c :: t) ++ 10 :: encodeLines (t2 :: ts2) =
            asciiBytes (c :: cs)
          have : asciiBytes t ++ 10 :: encodeLines (t2 :: ts2) = asciiBytes cs := ih
          show c.toNat :: (asciiBytes t ++ 10 :: encodeLines (t2 :: ts2)) =
            c.toNat :: asciiBytes cs
          rw [this]

/-- The tail after skipping empty lines of a clean stream is clean. -/
theorem cleanLines_skipEmptyLinesL (ls : List Str) (h : cleanLines ls) :
    cleanLines (skipEmptyLinesL ls).2 := by
  induction ls with
  | nil => simp [skipEmptyLinesL, cleanLines]
  | cons l ls ih =>
    by_cases hl : l = []
    · simp only [skipEmptyLinesL, hl, if_pos rfl]
      exact ih (cleanLines_tail h)
    · simp only [skipEmptyLinesL, hl, if_neg hl]
      exact cleanLines_tail h

/-- The skip wrapper over an encoded ASCII stream agrees with the line-level
skip. -/
theorem skipEmptyLinesB_ascii (ls : List Str) (hcl : cleanLines ls) :
    skipEmptyLinesB ⟨some utf8S, encodeLines ls⟩ =
      ((skipEmptyLinesL ls).1,
        ⟨some utf8S, encodeLines (skipEmptyLinesL ls).2⟩) := by
  unfold skipEmptyLinesB
  exact skipEmptyGo_ascii ls hcl _ (Nat.lt_succ_self _)

/-- The record parser over the bytes of a clean ASCII line stream whose first
line is non-empty agrees with the line-level record parser, both on the first
pull (no decoder yet) and on later pulls. -/
theorem parseNextB_ascii (d0 : Option Dec) (hd0 : d0 = none ∨ d0 = some utf8S)
    (l0 : Str) (ls : List Str) (hcl : cleanLines (l0 :: ls)) (hl0 : l0 ≠ []) :
    parseNextB ⟨d0, encodeLines (l0 :: ls)⟩ =
      ((parseNextL (l0 :: ls)).1,
        ⟨some utf8S, encodeLines (parseNextL (l0 :: ls)).2⟩) := by
  have hW := nextLineB_ascii d0 hd0 l0 (hcl l0 (by simp)) ls (Or.inl hl0)
  have hskip1 : skipEmptyLinesB ⟨d0, encodeLines (l0 :: ls)⟩ =
      (some l0, ⟨some utf8S, encodeLines ls⟩) := by
    unfold skipEmptyLinesB
    simp only [skipEmptyGo, hW, if_neg hl0]
  unfold parseNextB parseNextL
  rw [hskip1, skipEmptyLinesL_cons l0 ls hl0]
  dsimp only
  cases hp : parsePosition l0 with
  | error e => rfl
  | ok o =>
    cases o with
    | none => rfl
    | some v =>
      dsimp only
      rw [skipEmptyLinesB_ascii ls (cleanLines_tail hcl)]
      cases hs2 : skipEmptyLinesL ls with
      | mk o2 ls2 =>
        cases o2 with
        | none => rfl
        | some tl =>
          dsimp only
          cases htc : parseTimecode tl with
          | error e => rfl
          | ok oo =>
            cases oo with
            | none => rfl
            | some p =>
              obtain ⟨st, en⟩ := p
              dsimp only
              have hcl2 : cleanLines ls2 := by
                have hh := cleanLines_skipEmptyLinesL ls (cleanLines_tail hcl)
                rw [hs2] at hh
                exact hh
              rw [textLoopGo_ascii ls2 hcl2 _ [] (Nat.lt_succ_self _)]

/-- C9: for a Caption Record whose position fits `usize`, whose timecode
fields have the standard rendered widths (hours/minutes/seconds at most two
digits, milliseconds at most three), and whose text lines are non-empty clean
ASCII, re-parsing the raw bytes of the `Display` rendering yields a record
equal to the original, consuming the whole stream. -/
theorem c9_display_roundtrip (r : SubRip)
    (hpos : r.position < usizeBound)
    (hsh : r.start.hours ≤ 99) (hsm : r.start.minutes ≤ 99)
    (hss : r.start.seconds ≤ 99) (hsms : r.start.milliseconds ≤ 999)
    (heh : r.«end».hours ≤ 99) (hem : r.«end».minutes ≤ 99)
    (hes : r.«end».seconds ≤ 99) (hems : r.«end».milliseconds ≤ 999)
    (htext : ∀ l ∈ r.text, l ≠ [] ∧ ∀ c ∈ l, cleanChar c) :
    parseNextB ⟨none, asciiBytes (display r)⟩ =
      (.ok (some r), ⟨some utf8S, []⟩) := by
  have htcclean := tcLineOf_clean _ _ _ _ _ _ _ _
    (padZeros_clean 2 _ (natDigits_clean r.start.hours))
    (padZeros_clean 2 _ (natDigits_clean r.start.minutes))
    (padZeros_clean 2 _ (natDigits_clean r.start.seconds))
    (padZeros_clean 3 _ (natDigits_clean r.start.milliseconds))
    (padZeros_clean 2 _ (natDigits_clean r.«end».hours))
    (padZeros_clean 2 _ (natDigits_clean r.«end».minutes))
    (padZeros_clean 2 _ (natDigits_clean r.«end».seconds))
    (padZeros_clean 3 _ (natDigits_clean r.«end».milliseconds))
  have hlines : linesOf (display r) =
      natDigits r.position ::
        tcLineOf
          (padZeros 2 (natDigits r.start.hours))
          (padZeros 2 (natDigits r.start.minutes))
          (padZeros 2 (natDigits r.start.seconds))
          (padZeros 3 (natDigits r.start.milliseconds))
          (padZeros 2 (natDigits r.«end».hours))
          (padZeros 2 (natDigits r.«end».minutes))
          (padZeros 2 (natDigits r.«end».seconds))
          (padZeros 3 (natDigits r.«end».milliseconds)) :: r.text := by
    rw [display, foldl_textGlue r.text [], List.nil_append,
      linesOf_append _ (clean_no_nl (natDigits_clean r.position)),
      linesOf_glue r.text (fun l hl => clean_no_nl (htext l hl).2) _
        (clean_no_nl htcclean)]
  have hbytes : asciiBytes (display r) = encodeLines (linesOf (display r)) :=
    (encodeLines_linesOf (display r)).symm
  have hround := display_roundtrip_lines r hpos hsh hsm hss hsms heh hem hes hems htext
  rw [hlines] at hround
  have hcl0 : cleanLines (natDigits r.position ::
      tcLineOf
        (padZeros 2 (natDigits r.start.hours))
        (padZeros 2 (natDigits r.start.minutes))
        (padZeros 2 (natDigits r.start.seconds))
        (padZeros 3 (natDigits r.start.milliseconds))
        (padZeros 2 (natDigits r.«end».hours))
        (padZeros 2 (natDigits r.«end».minutes))
        (padZeros 2 (natDigits r.«end».seconds))
        (padZeros 3 (natDigits r.«end».milliseconds)) :: r.text) := by
    intro x hx
    rcases List.mem_cons.mp hx with rfl | hx
    · exact natDigits_clean r.position
    rcases List.mem_cons.mp hx with rfl | hx
    · exact htcclean
    · exact (htext x hx).2
  rw [hbytes, hlines,
    parseNextB_ascii none (Or.inl rfl) _ _ hcl0 (natDigits_ne_nil r.position),
    hround]
  rfl

/-- C9 witness: the byte-level round trip at a concrete record. -/
theorem c9_display_roundtrip_witness :
    parseNextB ⟨none, asciiBytes (display
        ⟨1, ⟨1, 2, 3, 456⟩, ⟨7, 8, 9, 101⟩, ["This is a".data, "Test".data]⟩)⟩ =
      (.ok (some ⟨1, ⟨1, 2, 3, 456⟩, ⟨7, 8, 9, 101⟩,
        ["This is a".data, "Test".data]⟩), ⟨some utf8S, []⟩) :=
  c9_display_roundtrip
    ⟨1, ⟨1, 2, 3, 456⟩, ⟨7, 8, 9, 101⟩, ["This is a".data, "Test".data]⟩
    (by decide) (by decide) (by decide) (by decide) (by decide) (by decide)
    (by decide) (by decide) (by decide) (by decide)

/-- Reading to the linefeed byte on a little-endian ASCII UTF-16 stream
consumes whole units plus only the low byte of the linefeed unit, leaving its
pad byte. -/
theorem readUntil10_encLE (us : List Nat) (h : ∀ u ∈ us, u < 128) :
    readUntil 10 (encU16LE us) =
      if 10 ∈ us then
        (encU16LE (us.takeWhile (fun u => u != 10)) ++ [10],
         0 :: encU16LE (afterNL us))
      else (encU16LE us, []) := by
  induction us with
  | nil => simp [encU16LE, readUntil]
  | cons u us ih =>
    have hu : u < 128 := h u (by simp)
    have hmod : u % 256 = u := Nat.mod_eq_of_lt (by omega)
    have hdiv : u / 256 = 0 := Nat.div_eq_of_lt (by omega)
    have henc : encU16LE (u :: us) = u :: 0 :: encU16LE us := by
      rw [show encU16LE (u :: us) = u % 256 :: u / 256 :: encU16LE us from rfl,
        hmod, hdiv]
    have ih2 := ih (fun x hx => h x (by simp [hx]))
    by_cases h10 : u = 10
    · subst h10
      rw [henc, readUntil_cons_eq, if_pos (show (10 : Nat) ∈ 10 :: us by simp)]
      simp [afterNL, List.dropWhile_cons, List.takeWhile_cons, encU16LE]
    · have hpred : (u != 10) = true := by simp [h10]
      rw [henc, readUntil_cons_ne 10 u _ h10,
        readUntil_cons_ne 10 0 _ (by decide), ih2]
      by_cases hmem : (10 : Nat) ∈ us
      · rw [if_pos hmem, if_pos (show (10 : Nat) ∈ u :: us by simp [hmem])]
        simp [afterNL, List.takeWhile_cons, List.dropWhile_cons, hpred,
          encU16LE, hmod, hdiv]
      · have hmemc : ¬((10 : Nat) ∈ u :: us) := by
          intro hcon
          rcases List.mem_cons.mp hcon with hh | hh
          · exact h10 hh.symm
          · exact hmem hh
        rw [if_neg hmem, if_neg hmemc]

/-- Reading to the linefeed byte on a big-endian ASCII UTF-16 stream consumes
whole units including the full linefeed unit (its pad byte precedes the
linefeed byte). -/
theorem readUntil10_encBE (us : List Nat) (h : ∀ u ∈ us, u < 128) :
    readUntil 10 (encU16BE us) =
      if 10 ∈ us then
        (encU16BE (us.takeWhile (fun u => u != 10)) ++ [0, 10],
         encU16BE (afterNL us))
      else (encU16BE us, []) := by
  induction us with
  | nil => simp [encU16BE, readUntil]
  | cons u us ih =>
    have hu : u < 128 := h u (by simp)
    have hmod : u % 256 = u := Nat.mod_eq_of_lt (by omega)
    have hdiv : u / 256 = 0 := Nat.div_eq_of_lt (by omega)
    have henc : encU16BE (u :: us) = 0 :: u :: encU16BE us := by
      rw [show encU16BE (u :: us) = u / 256 :: u % 256 :: encU16BE us from rfl,
        hmod, hdiv]
    have ih2 := ih (fun x hx => h x (by simp [hx]))
    by_cases h10 : u = 10
    · subst h10
      rw [henc, readUntil_cons_ne 10 0 _ (by decide), readUntil_cons_eq,
        if_pos (show (10 : Nat) ∈ 10 :: us by simp)]
      simp [afterNL, List.dropWhile_cons, List.takeWhile_cons, encU16BE]
    · have hpred : (u != 10) = true := by simp [h10]
      rw [henc, readUntil_cons_ne 10 0 _ (by decide),
        readUntil_cons_ne 10 u _ h10, ih2]
      by_cases hmem : (10 : Nat) ∈ us
      · rw [if_pos hmem, if_pos (show (10 : Nat) ∈ u :: us by simp [hmem])]
        simp [afterNL, List.takeWhile_cons, List.dropWhile_cons, hpred,
          encU16BE, hmod, hdiv]
      · have hmemc : ¬((10 : Nat) ∈ u :: us) := by
          intro hcon
          rcases List.mem_cons.mp hcon with hh | hh
          · exact h10 hh.symm
          · exact hmem hh
        rw [if_neg hmem, if_neg hmemc]

/-- Without a linefeed unit the whole stream is consumed. -/
theorem afterNL_of_not_mem {us : List Nat} (hmem : (10 : Nat) ∉ us) :
    afterNL us = [] := by
  have hdw : us.dropWhile (fun u => u != 10) = [] := by
    rw [List.dropWhile_eq_nil_iff]
    intro x hx
    simp only [bne_iff_ne, ne_eq]
    exact fun hx10 => hmem (hx10 ▸ hx)
  simp [afterNL, hdw]

/-- After a line read on a little-endian ASCII UTF-16 stream (decoder already
established) the remainder starts on a unit boundary: it is the encoding of
the units after the linefeed unit. -/
theorem nextLineB_le_rest (us : List Nat) (h : ∀ u ∈ us, u < 128) :
    (nextLineB ⟨some ⟨.utf16le, false⟩, encU16LE us⟩).2 =
      ⟨some ⟨.utf16le, false⟩, encU16LE (afterNL us)⟩ := by
  by_cases hmem : 10 ∈ us
  · have hr := readUntil10_encLE us h
    rw [if_pos hmem] at hr
    simp [nextLineB, hr, readUntil_cons_eq, decodeChunk]
  · have hr := readUntil10_encLE us h
    rw [if_neg hmem] at hr
    have hafter : afterNL us = [] := afterNL_of_not_mem hmem
    cases hus : us with
    | nil => simp [nextLineB, encU16LE, readUntil, hafter, decodeChunk]
    | cons u us2 =>
      have hne : encU16LE us ≠ [] := by
        rw [hus, show encU16LE (u :: us2) = u % 256 :: u / 256 :: encU16LE us2 from rfl]
        simp
      rw [← hus]
      simp [nextLineB, hr, readUntil, hne, hafter, decodeChunk, encU16LE]

/-- After a line read on a big-endian ASCII UTF-16 stream (decoder already
established) the remainder starts on a unit boundary. -/
theorem nextLineB_be_rest (us : List Nat) (h : ∀ u ∈ us, u < 128) :
    (nextLineB ⟨some ⟨.utf16be, false⟩, encU16BE us⟩).2 =
      ⟨some ⟨.utf16be, false⟩, encU16BE (afterNL us)⟩ := by
  by_cases hmem : 10 ∈ us
  · have hr := readUntil10_encBE us h
    rw [if_pos hmem] at hr
    simp [nextLineB, hr, decodeChunk]
  · have hr := readUntil10_encBE us h
    rw [if_neg hmem] at hr
    have hafter : afterNL us = [] := afterNL_of_not_mem hmem
    cases hus : us with
    | nil => simp [nextLineB, encU16BE, readUntil, hafter, decodeChunk]
    | cons u us2 =>
      have hne : encU16BE us ≠ [] := by
        rw [hus, show encU16BE (u :: us2) = u / 256 :: u % 256 :: encU16BE us2 from rfl]
        simp
      rw [← hus]
      simp [nextLineB, hr, hne, hafter, decodeChunk, encU16BE]

/-- The first line read of a little-endian UTF-16 stream with its BOM detects
the encoding, performs the pad-byte read, and leaves a unit-aligned
remainder. -/
theorem nextLineB_le_bom_rest (us : List Nat) (h : ∀ u ∈ us, u < 128) :
    (nextLineB ⟨none, 0xFF :: 0xFE :: encU16LE us⟩).2 =
      ⟨some ⟨.utf16le, false⟩, encU16LE (afterNL us)⟩ := by
  have hr := readUntil10_encLE us h
  by_cases hmem : 10 ∈ us
  · rw [if_pos hmem] at hr
    simp [nextLineB, readUntil_cons_ne 10 0xFF _ (by decide),
      readUntil_cons_ne 10 0xFE _ (by decide), hr, readUntil_cons_eq,
      forBom, decodeChunk]
  · rw [if_neg hmem] at hr
    have hafter : afterNL us = [] := afterNL_of_not_mem hmem
    simp [nextLineB, readUntil_cons_ne 10 0xFF _ (by decide),
      readUntil_cons_ne 10 0xFE _ (by decide), hr, readUntil, forBom,
      decodeChunk, hafter]
    rfl

/-- The first line read of a big-endian UTF-16 stream with its BOM detects
the encoding and leaves a unit-aligned remainder (the pad byte of the
linefeed unit precedes the linefeed byte, so the primary read consumes it). -/
theorem nextLineB_be_bom_rest (us : List Nat) (h : ∀ u ∈ us, u < 128) :
    (nextLineB ⟨none, 0xFE :: 0xFF :: encU16BE us⟩).2 =
      ⟨some ⟨.utf16be, false⟩, encU16BE (afterNL us)⟩ := by
  have hr := readUntil10_encBE us h
  by_cases hmem : 10 ∈ us
  · rw [if_pos hmem] at hr
    simp [nextLineB, readUntil_cons_ne 10 0xFE _ (by decide),
      readUntil_cons_ne 10 0xFF _ (by decide), hr, forBom, decodeChunk]
  · rw [if_neg hmem] at hr
    have hafter : afterNL us = [] := afterNL_of_not_mem hmem
    simp [nextLineB, readUntil_cons_ne 10 0xFE _ (by decide),
      readUntil_cons_ne 10 0xFF _ (by decide), hr, forBom, decodeChunk, hafter]
    rfl

/-- C8 amended: for UTF-16 streams whose code units are ASCII scalars, every
line read leaves a remainder that starts on a two-byte unit boundary (the
encoding of the units after the linefeed unit) — in the little-endian case
via the extra pad-byte read the code performs, in the big-endian case because
the pad byte precedes the linefeed byte; both for the first read (BOM
present, decoder not yet established) and for every later read. -/
theorem c8_alignment_amended (us : List Nat) (h : ∀ u ∈ us, u < 128) :
    (nextLineB ⟨some ⟨.utf16le, false⟩, encU16LE us⟩).2 =
      ⟨some ⟨.utf16le, false⟩, encU16LE (afterNL us)⟩ ∧
    (nextLineB ⟨some ⟨.utf16be, false⟩, encU16BE us⟩).2 =
      ⟨some ⟨.utf16be, false⟩, encU16BE (afterNL us)⟩ ∧
    (nextLineB ⟨none, 0xFF :: 0xFE :: encU16LE us⟩).2 =
      ⟨some ⟨.utf16le, false⟩, encU16LE (afterNL us)⟩ ∧
    (nextLineB ⟨none, 0xFE :: 0xFF :: encU16BE us⟩).2 =
      ⟨some ⟨.utf16be, false⟩, encU16BE (afterNL us)⟩ :=
  ⟨nextLineB_le_rest us h, nextLineB_be_rest us h,
   nextLineB_le_bom_rest us h, nextLineB_be_bom_rest us h⟩

/-- C8 witness: the amended theorem at the ASCII unit stream `Hi\nz`. -/
theorem c8_alignment_amended_witness :
    (∀ u ∈ [72, 105, 10, 122], u < 128) ∧
    (nextLineB ⟨some ⟨.utf16le, false⟩, encU16LE [72, 105, 10, 122]⟩).2 =
      ⟨some ⟨.utf16le, false⟩, encU16LE (afterNL [72, 105, 10, 122])⟩ ∧
    (nextLineB ⟨none, 0xFE :: 0xFF :: encU16BE [72, 105, 10, 122]⟩).2 =
      ⟨some ⟨.utf16be, false⟩, encU16BE (afterNL [72, 105, 10, 122])⟩ :=
  ⟨by decide,
    (c8_alignment_amended [72, 105, 10, 122] (by decide)).1,
    (c8_alignment_amended [72, 105, 10, 122] (by decide)).2.2.2⟩

/-- C3 witness: the amended theorem at the spec's own timecode line tokens. -/
theorem c3_timecode_tokens_witness :
    numericTok u8Bound "01".data ∧
    splitDelims (tcLineOf "01".data "04".data "00".data "705".data
        "01".data "04".data "02".data "145".data) =
      ["01".data, "04".data, "00".data, "705".data, ['-', '-', '>'],
       "01".data, "04".data, "02".data, "145".data] ∧
    parseTimecode (tcLineOf "01".data "04".data "00".data "705".data
        "01".data "04".data "02".data "145".data) =
      .ok (some (⟨1, 4, 0, 705⟩, ⟨1, 4, 2, 145⟩)) :=
  ⟨by decide,
    (c3_timecode_tokens.1 "01".data "04".data "00".data "705".data
      "01".data "04".data "02".data "145".data
      (by decide) (by decide) (by decide) (by decide)
      (by decide) (by decide) (by decide) (by decide)).1,
    (c3_timecode_tokens.1 "01".data "04".data "00".data "705".data
      "01".data "04".data "02".data "145".data
      (by decide) (by decide) (by decide) (by decide)
      (by decide) (by decide) (by decide) (by decide)).2⟩

/-- C2: on the spec's two-record stream, the iterator yields exactly the
record with position 1433 (start 1:4:0,705, end 1:4:2,145, two text lines),
then the record with position 1434 (start 1:4:2,170, end 1:4:4,190, one text
line), then no further item. -/
theorem c2_two_records :
    itemsB 3 ⟨none, c2bytes⟩ = [some (.ok c2rec1), some (.ok c2rec2), none] := by
  decide

/-- C4: with the unsigned field types `format.rs` declares (`u8`/`u16`), the
timecode parser rejects a leading negative sign and rejects a field value
above the type's range — evaluating the code at the failing input of
`core.rs`'s own `negative_timecode` test, which expects the first line to
parse with negative field values. -/
theorem c4_unsigned_fields_reject :
    parseTimecode negTcLine = .error "invalid digit found in string" ∧
    parseTimecode bigTcLine = .error "number too large to fit in target type" := by
  exact ⟨by decide, by decide⟩

/-- C7 counterexample: on the empty stream the first pull yields no item, but
encoding detection does run: the decoder field is initialized (to the UTF-8
default), contradicting "encoding detection is never triggered for an empty
stream". -/
theorem c7_counterexample :
    (nextItemB ⟨none, []⟩).1 = none ∧ (nextItemB ⟨none, []⟩).2.dec ≠ none := by
  exact ⟨rfl, by decide⟩

/-- C7 amended: the empty stream yields no item and no error on the first
pull, and that pull runs encoding detection on the empty buffer, installing
the UTF-8 default decoder while consuming nothing. -/
theorem c7_empty_stream_amended :
    nextItemB ⟨none, []⟩ = (none, ⟨some ⟨.utf8, true⟩, []⟩) := by
  decide

/-- C1 counterexample: a malformed record (`1b`, then a timecode line and a
text line) followed by a blank separator and a well-formed record yields
three `InvalidPosition` errors — one per remaining non-empty line of the
malformed record — not exactly one tagged error. -/
theorem c1_counterexample :
    (itemsB 5 ⟨none, c1cexBytes⟩).map (Option.map (Except.mapError Error.kind)) =
      [some (.error .InvalidPosition), some (.error .InvalidPosition),
       some (.error .InvalidPosition), some (.ok c1cexRec), none] := by
  decide

/-- C3 counterexample: splitting the spec's own well-formed timecode line on
`{:, ',', ' '}` yields 9 tokens, not 10. -/
theorem c3_counterexample :
    (splitDelims c2l2).length = 9 ∧ (splitDelims c2l2).length ≠ 10 := by
  decide

/-- C5 counterexample: with a blank line between the position line and the
timecode line, the source machine still parses the record (it skips the
blank), whereas the read-exactly-one-line machine built from the spec's words
gives a different result. -/
theorem c5_counterexample :
    parseNextL c5cexLines = (.ok (some c5cexRec), []) ∧
    parseNextOneLineL c5cexLines ≠ parseNextL c5cexLines := by
  exact ⟨by decide, by decide⟩

/-- C6 counterexample: a stream that ends right after the timecode line makes
the parser emit a Caption Record with an empty text list — not "no record". -/
theorem c6_counterexample :
    (nextItemB ⟨none, c6cexBytes⟩).1 = some (.ok c6cexRec) ∧ c6cexRec.text = [] := by
  exact ⟨by decide, rfl⟩

/-- C8 counterexample: a UTF-16LE stream of whole code units (BOM, U+0A41,
U+6100, U+000A) has even length, yet after one line read the unread remainder
has odd length, so the next read does not start on a two-byte unit boundary. -/
theorem c8_counterexample :
    c8cexBytes.length % 2 = 0 ∧
    (nextLineB ⟨none, c8cexBytes⟩).2.bytes.length % 2 = 1 := by
  decide

/-- C10: when the stream ends (possibly after blank lines) right after a
well-formed position line, the next pull of the iterator returns no item:
the dangling record is dropped with neither a record nor an error. -/
theorem c10_dangling_position (p : Str) (v : Nat) (k : Nat) (hp : p ≠ [])
    (hv : parsePosition p = .ok (some v)) :
    nextItemL (p :: List.replicate k []) = (none, []) := by
  simp only [nextItemL, parseNextL, skipEmptyLinesL_cons p _ hp, hv,
    skipEmptyLinesL_replicate_nil]

/-- C10 witness: the theorem at the concrete dangling stream `["7"]`. -/
theorem c10_dangling_position_witness :
    ("7".data : Str) ≠ [] ∧ parsePosition "7".data = .ok (some 7) ∧
    nextItemL ["7".data] = (none, []) :=
  ⟨by decide, by decide,
    by simpa using c10_dangling_position "7".data 7 0 (by decide) (by decide)⟩

/-- C6 amended: the text loop appends non-empty lines until end-of-stream,
and when zero text lines are accumulated the parser still emits a Caption
Record, with an empty text list (the case `text = []`), rather than "no
record". -/
theorem c6_empty_text_amended (p tc : Str) (v : Nat) (st en : Timecode)
    (text : List Str) (hp : p ≠ []) (htc : tc ≠ [])
    (hv : parsePosition p = .ok (some v))
    (ht : parseTimecode tc = .ok (some (st, en)))
    (htext : ∀ l ∈ text, l ≠ []) :
    parseNextL (p :: tc :: text) = (.ok (some ⟨v, st, en, text⟩), []) :=
  parseNextL_record p tc v st en text hp htc hv ht htext

/-- C6 witness: the amended theorem at a record with zero text lines — the
parser emits the empty-text record. -/
theorem c6_empty_text_amended_witness :
    parsePosition "1".data = .ok (some 1) ∧
    parseTimecode "00:00:00,000 --> 00:00:01,000".data = .ok (some (⟨0, 0, 0, 0⟩, ⟨0, 0, 1, 0⟩)) ∧
    parseNextL ["1".data, "00:00:00,000 --> 00:00:01,000".data] =
      (.ok (some ⟨1, ⟨0, 0, 0, 0⟩, ⟨0, 0, 1, 0⟩, []⟩), []) :=
  ⟨by decide, by decide,
    c6_empty_text_amended "1".data "00:00:00,000 --> 00:00:01,000".data 1 _ _ []
      (by decide) (by decide) (by decide) (by decide) (by simp)⟩

/-- C5 amended: before parsing the timecode the machine runs the same
blank-line skip as before the position line, so blank lines between the
position line and the timecode line are ignored. -/
theorem c5_blank_skip_amended (p : Str) (v k : Nat) (rest : List Str)
    (hp : p ≠ []) (hv : parsePosition p = .ok (some v)) :
    parseNextL (p :: (List.replicate k [] ++ rest)) = parseNextL (p :: rest) := by
  simp only [parseNextL, skipEmptyLinesL_cons p _ hp, hv, skipEmptyLinesL_replicate]

/-- C5 witness: the amended theorem with two blank lines inserted between a
position line and the rest of the record. -/
theorem c5_blank_skip_amended_witness :
    ("1".data : Str) ≠ [] ∧ parsePosition "1".data = .ok (some 1) ∧
    parseNextL ("1".data :: (List.replicate 2 [] ++ [tcLine1, "hi".data])) =
      parseNextL ("1".data :: [tcLine1, "hi".data]) :=
  ⟨by decide, by decide,
    c5_blank_skip_amended "1".data 1 2 [tcLine1, "hi".data] (by decide) (by decide)⟩

/-- Unfolding one pull of the line-level iterator. -/
theorem itemsL_succ (n : Nat) (ls : List Str) :
    itemsL (n + 1) ls = (nextItemL ls).1 :: itemsL n (nextItemL ls).2 := by
  rcases h : nextItemL ls with ⟨i, ls2⟩
  simp [itemsL, h]

/-- Three pulls of the line-level iterator, spelled out. -/
theorem itemsL_three (ls : List Str) :
    itemsL 3 ls =
      [(nextItemL ls).1,
       (nextItemL (nextItemL ls).2).1,
       (nextItemL (nextItemL (nextItemL ls).2).2).1] := by
  rw [show (3 : Nat) = 2 + 1 from rfl, itemsL_succ,
    show (2 : Nat) = 1 + 1 from rfl, itemsL_succ,
    show (1 : Nat) = 0 + 1 from rfl, itemsL_succ]
  rfl

/-- A pull on a blank separator followed by a well-formed record yields that
record and consumes the stream. -/
theorem nextItemL_blank_record (p2 tc2 : Str) (v2 : Nat) (st en : Timecode)
    (text2 : List Str) (hp2 : p2 ≠ []) (htc2 : tc2 ≠ [])
    (hv2 : parsePosition p2 = .ok (some v2))
    (htcv2 : parseTimecode tc2 = .ok (some (st, en)))
    (htext2 : ∀ l ∈ text2, l ≠ []) :
    nextItemL ([] :: p2 :: tc2 :: text2) = (some (.ok ⟨v2, st, en, text2⟩), []) := by
  have hskip : skipEmptyLinesL ([] :: p2 :: tc2 :: text2) = (some p2, tc2 :: text2) := by
    simp [skipEmptyLinesL, hp2]
  simp only [nextItemL, parseNextL, hskip, hv2, skipEmptyLinesL_cons tc2 _ htc2,
    htcv2, textLoopL_all_ne text2 htext2 [], List.nil_append]

/-- The empty stream pulls no item. -/
theorem nextItemL_nil : nextItemL [] = (none, []) := rfl

/-- C1 amended: a field-parse failure tags the error with the failed field
(`InvalidPosition` when the position line fails, `InvalidTimecode` when the
timecode line fails; `InvalidText` only wraps I/O read failures, which no
line content can cause) and the parser returns at once, discarding nothing:
the pull consumes the input exactly through the failing line, and the next
pull resumes at the next non-empty line, parsing it as a new position line —
remaining lines of a malformed record are not skipped and may yield further
errors or even spurious records.  When the malformed record's failing line
is its last non-blank line, exactly one tagged error is yielded and any
following well-formed record after the blank separator parses normally. -/
theorem c1_no_discard_amended :
    (∀ (bad : Str) (e : String) (rest : List Str), bad ≠ [] →
      parsePosition bad = .error e →
      parseNextL (bad :: rest) = (.error ⟨.InvalidPosition, e⟩, rest)) ∧
    (∀ (p tc : Str) (v : Nat) (e : String) (rest : List Str),
      p ≠ [] → tc ≠ [] →
      parsePosition p = .ok (some v) → parseTimecode tc = .error e →
      parseNextL (p :: tc :: rest) = (.error ⟨.InvalidTimecode, e⟩, rest)) ∧
    (∀ (bad p2 tc2 : Str) (e : String) (v2 : Nat) (st en : Timecode)
      (text2 : List Str),
      bad ≠ [] → parsePosition bad = .error e →
      p2 ≠ [] → parsePosition p2 = .ok (some v2) →
      tc2 ≠ [] → parseTimecode tc2 = .ok (some (st, en)) →
      (∀ l ∈ text2, l ≠ []) →
      itemsL 3 (bad :: [] :: p2 :: tc2 :: text2) =
        [some (.error ⟨.InvalidPosition, e⟩),
         some (.ok ⟨v2, st, en, text2⟩), none]) ∧
    (∀ (p tc p2 tc2 : Str) (v : Nat) (e : String) (v2 : Nat) (st en : Timecode)
      (text2 : List Str),
      p ≠ [] → tc ≠ [] →
      parsePosition p = .ok (some v) → parseTimecode tc = .error e →
      p2 ≠ [] → parsePosition p2 = .ok (some v2) →
      tc2 ≠ [] → parseTimecode tc2 = .ok (some (st, en)) →
      (∀ l ∈ text2, l ≠ []) →
      itemsL 3 (p :: tc :: [] :: p2 :: tc2 :: text2) =
        [some (.error ⟨.InvalidTimecode, e⟩),
         some (.ok ⟨v2, st, en, text2⟩), none]) := by
  have posFail : ∀ (bad : Str) (e : String) (rest : List Str), bad ≠ [] →
      parsePosition bad = .error e →
      parseNextL (bad :: rest) = (.error ⟨.InvalidPosition, e⟩, rest) := by
    intro bad e rest hb he
    simp only [parseNextL, skipEmptyLinesL_cons bad _ hb, he]
  have tcFail : ∀ (p tc : Str) (v : Nat) (e : String) (rest : List Str),
      p ≠ [] → tc ≠ [] →
      parsePosition p = .ok (some v) → parseTimecode tc = .error e →
      parseNextL (p :: tc :: rest) = (.error ⟨.InvalidTimecode, e⟩, rest) := by
    intro p tc v e rest hp htc hv he
    simp only [parseNextL, skipEmptyLinesL_cons p _ hp, hv,
      skipEmptyLinesL_cons tc _ htc, he]
  refine ⟨posFail, tcFail, ?_, ?_⟩
  · intro bad p2 tc2 e v2 st en text2 hb he hp2 hv2 htc2 htcv2 htext2
    have h1 : nextItemL (bad :: [] :: p2 :: tc2 :: text2) =
        (some (.error ⟨.InvalidPosition, e⟩), [] :: p2 :: tc2 :: text2) := by
      simp only [nextItemL, posFail bad e _ hb he]
    have h2 := nextItemL_blank_record p2 tc2 v2 st en text2 hp2 htc2 hv2 htcv2 htext2
    simp only [itemsL_three, h1, h2, nextItemL_nil]
  · intro p tc p2 tc2 v e v2 st en text2 hp htc hv he hp2 hv2 htc2 htcv2 htext2
    have h1 : nextItemL (p :: tc :: [] :: p2 :: tc2 :: text2) =
        (some (.error ⟨.InvalidTimecode, e⟩), [] :: p2 :: tc2 :: text2) := by
      simp only [nextItemL, tcFail p tc v e _ hp htc hv he]
    have h2 := nextItemL_blank_record p2 tc2 v2 st en text2 hp2 htc2 hv2 htcv2 htext2
    simp only [itemsL_three, h1, h2, nextItemL_nil]

/-- C1 witness: the amended theorem at the spec's own failure examples — the
non-numeric position line `1b` (pull consumes only that line), and the
incomplete timecode line `00:00:00,000` of the `invalid_subtitle` test
followed by a blank separator and a well-formed record (exactly one tagged
error, then the record, then end). -/
theorem c1_no_discard_amended_witness :
    parseNextL ["1b".data, tcLine1] =
      (.error ⟨.InvalidPosition, "invalid digit found in string"⟩, [tcLine1]) ∧
    itemsL 3 ("1".data :: "00:00:00,000".data :: [] :: "2".data :: tcLine1 ::
        ["This is a Test".data]) =
      [some (.error ⟨.InvalidTimecode, "wrong timecode format"⟩),
       some (.ok ⟨2, ⟨1, 2, 3, 456⟩, ⟨7, 8, 9, 101⟩, ["This is a Test".data]⟩),
       none] :=
  ⟨c1_no_discard_amended.1 "1b".data "invalid digit found in string" [tcLine1]
      (by decide) (by decide),
   c1_no_discard_amended.2.2.2 "1".data "00:00:00,000".data "2".data tcLine1 1
      "wrong timecode format" 2 ⟨1, 2, 3, 456⟩ ⟨7, 8, 9, 101⟩
      ["This is a Test".data]
      (by decide) (by decide) (by decide) (by decide) (by decide) (by decide)
      (by decide) (by decide) (by decide)⟩

end Subs
